import Mathlib

/-!
Verification development for the Go labs of `sum25-go-flutter-course`

A shallow embedding of the backend packages the properties below talk about:

* `labs/lab02/backend/chatcore` : the message broker (`Broker`, `Run`,
  `SendMessage`, `RegisterUser`, `UnregisterUser`);
* `labs/lab01/backend/user` : `User`, `Validate`, `NewUser`, `IsValidName`,
  `IsValidAge`, `IsValidEmail`;
* `labs/lab01/backend/taskmanager` : `TaskManager`, `AddTask`, `GetTask`,
  `UpdateTask`, `DeleteTask`, `ListTasks`;
* `labs/lab02/backend/message` : `MessageStore`, `AddMessage`, `GetMessages`;
* `labs/lab04/backend/models` : `Post`, `CreatePostRequest`, their `Validate`
  and `ToPost`;
* `labs/lab04/backend/repository` : the query and the arguments that
  `UserRepository.Update` builds;
* `labs/lab05/backend/userdomain` : `User`, `NewUser`, `Validate`,
  `ValidateEmail`, `ValidateName`, `ValidatePassword`.

Conventions of the embedding.

* A Go `map[K]V` is a list of key/value pairs in which a key occurs at most
  once (`GoMap.Wf`).  The order of the list is the order in which a `range`
  loop visits the entries; Go leaves that order unspecified, and every theorem
  on a `range` loop is stated for an arbitrary list.
* A Go `chan Message` value is a handle (`ChanId`); the channels themselves
  live in a `Heap`.  Two identifiers may be registered with the same handle.
  A channel is a buffer of bounded capacity; the channels held in the heap are
  open (their owners do not close them while they are registered).
* `time.Now().Unix()` is the parameter `now`.
* A Go `int` is kept as an integer; where the code does arithmetic on one
  (`tm.nextID++`) the result wraps around at 64 bits (`wrapInt`).
* `len` of a Go string is its number of bytes in UTF-8 (`String.utf8ByteSize`).
* A `select` that waits on `time.After(100 * time.Millisecond)` next to a send
  takes the send when the channel has room and the timer otherwise: the model
  is sequential, so nobody drains a full channel during the attempt.
* When several cases of a `select` are ready, Go picks one of them at random;
  the pick is the parameter `pick`.
-/

/-! ## Go maps -/

namespace GoMap

variable {κ α : Type} [DecidableEq κ]

/-- The lookup `m[k]` with its `ok` flag: `some v` when present. -/
def get : List (κ × α) → κ → Option α
  | [], _ => none
  | (k', v) :: rest, k => if k' = k then some v else get rest k

/-- The built-in `delete(m, k)`. -/
def del (m : List (κ × α)) (k : κ) : List (κ × α) :=
  m.filter (fun e => decide (e.1 ≠ k))

/-- The assignment `m[k] = v`: inserts the key or replaces its value. -/
def set (m : List (κ × α)) (k : κ) (v : α) : List (κ × α) :=
  (k, v) :: del m k

/-- The keys of the map, in `range` order. -/
def keys (m : List (κ × α)) : List κ := m.map Prod.fst

/-- A key occurs at most once: the lists that stand for a Go map. -/
def Wf (m : List (κ × α)) : Prop := (keys m).Nodup

/-- Whether the keys are distinct can be computed. -/
instance Wf.decidable (m : List (κ × α)) : Decidable (Wf m) :=
  inferInstanceAs (Decidable (keys m).Nodup)

end GoMap

/-! ## lab02 `chatcore` -/

namespace chatcore

/-- The struct `Message`. -/
structure Message where
  Sender : String
  Recipient : String
  Content : String
  Broadcast : Bool
  Timestamp : Int
deriving DecidableEq, Repr

/-- A value of type `chan Message`: a reference to a channel. -/
abbrev ChanId := Nat

/-- A channel: the messages buffered in it, oldest first, and its capacity. -/
structure Chan where
  buf : List Message
  cap : Nat
deriving DecidableEq, Repr

/-- The channels of the program, by handle. -/
abbrev Heap := ChanId → Chan

/-- The struct `Broker`: `ctxDone` says whether `ctx.Done()` is closed,
`input` is the content of the buffered channel `input` (capacity `inputCap`),
`users` the registry, `done` whether the channel `done` is closed. -/
structure Broker where
  ctxDone : Bool
  input : List Message
  users : List (String × ChanId)
  done : Bool
deriving DecidableEq, Repr

/-- The capacity given to `make(chan Message, 100)` in `NewBroker`. -/
def inputCap : Nat := 100

/-- The function `NewBroker`; `ctxDone` is the state of the context passed in. -/
def NewBroker (ctxDone : Bool) : Broker :=
  { ctxDone := ctxDone, input := [], users := [], done := false }

/-- The method `RegisterUser`: `b.users[userID] = recv` under the write lock. -/
def RegisterUser (b : Broker) (userID : String) (recv : ChanId) : Broker :=
  { b with users := GoMap.set b.users userID recv }

/-- The method `UnregisterUser`: `delete(b.users, userID)` under the write lock. -/
def UnregisterUser (b : Broker) (userID : String) : Broker :=
  { b with users := GoMap.del b.users userID }

/-- One delivery attempt of `Run`, as the dispatch loop logs it: the identifier
it was made for, the channel it was made on, and whether the send was taken
(`true`) or the 100ms timer (`false`). -/
structure Attempt where
  user : String
  chan : ChanId
  delivered : Bool
deriving DecidableEq, Repr

/-- Whether a send on the channel can proceed: the buffer has room. -/
def Chan.hasRoom (c : Chan) : Bool := decide (c.buf.length < c.cap)

/-- The statement `select { case ch <- msg: ; case <-time.After(100ms): }`:
the message is appended when the channel has room, and the attempt is given up
otherwise.  Returns the heap and whether the message was sent. -/
def trySend (h : Heap) (ch : ChanId) (msg : Message) : Heap × Bool :=
  if (h ch).hasRoom then
    (Function.update h ch { (h ch) with buf := (h ch).buf ++ [msg] }, true)
  else
    (h, false)

/-- The loop `for _, userChan := range b.users { select ... }` of `Run`. -/
def sendAll (msg : Message) : List (String × ChanId) → Heap → Heap × List Attempt
  | [], h => (h, [])
  | (u, ch) :: rest, h =>
    let r := trySend h ch msg
    let s := sendAll msg rest r.1
    (s.1, { user := u, chan := ch, delivered := r.2 } :: s.2)

/-- Lines 56-58 of `Run`: a zero `Timestamp` is set to the current time. -/
def stamp (now : Int) (msg : Message) : Message :=
  if msg.Timestamp = 0 then { msg with Timestamp := now } else msg

/-- Lines 60-80 of `Run`, between `RLock` and `RUnlock`: the fan-out of one
message over the registry, with the log of the attempts made. -/
def fanOut (users : List (String × ChanId)) (h : Heap) (msg : Message) :
    Heap × List Attempt :=
  if msg.Broadcast then
    sendAll msg users h
  else
    match GoMap.get users msg.Recipient with
    | some ch =>
      let r := trySend h ch msg
      (r.1, [{ user := msg.Recipient, chan := ch, delivered := r.2 }])
    | none => (h, [])

/-- The case a `select` takes when both its context case (`<-b.ctx.Done()`) and
its channel case (a receive from or a send on `b.input`) are ready. -/
inductive Pick where
  | ctx
  | chan
deriving DecidableEq, Repr

/-- The body of `case msg := <-b.input:` in `Run` (lines 55-80): the message
is stamped and fanned out over the registry of the broker. -/
def dispatch (now : Int) (b : Broker) (h : Heap) (msg : Message) :
    Heap × List Attempt :=
  fanOut b.users h (stamp now msg)

/-- The number of attempts of a log that put a message into the channel `c`. -/
def copies (log : List Attempt) (c : ChanId) : Nat :=
  (log.filter (fun a => decide (a.chan = c) && a.delivered)).length

/-- The identifiers that the registry maps to the channel `c`. -/
def idsOf (users : List (String × ChanId)) (c : ChanId) : List String :=
  (users.filter (fun e => decide (e.2 = c))).map Prod.fst

/-- The heap in which every channel is empty and has room for `n` messages. -/
def emptyHeap (n : Nat) : Heap := fun _ => { buf := [], cap := n }

/-- The heap in which every channel has capacity `n` and holds the messages `buf`. -/
def constHeap (buf : List Message) (n : Nat) : Heap := fun _ => { buf := buf, cap := n }

/-- What one turn of the `for` loop of `Run` does. -/
inductive Iter where
  /-- `case <-b.ctx.Done(): return`, after which the deferred `close(b.done)` runs. -/
  | stopped (b : Broker)
  /-- `case msg := <-b.input:` with the fan-out of `msg`. -/
  | dispatched (b : Broker) (h : Heap) (log : List Attempt)
  /-- Neither case is ready: the loop waits. -/
  | blocked

/-- One turn of the `for` loop of `Run` (lines 50-82).  `pick` is consulted only
when both cases of the `select` are ready. -/
def Run.iter (now : Int) (pick : Pick) (b : Broker) (h : Heap) : Iter :=
  match b.ctxDone, b.input, pick with
  | true, [], _ => .stopped { b with done := true }
  | true, _ :: _, .ctx => .stopped { b with done := true }
  | true, msg :: rest, .chan =>
    .dispatched { b with input := rest } (dispatch now b h msg).1 (dispatch now b h msg).2
  | false, msg :: rest, _ =>
    .dispatched { b with input := rest } (dispatch now b h msg).1 (dispatch now b h msg).2
  | false, [], _ => .blocked

/-- The result of `SendMessage`: `nil` or one of its two errors. -/
inductive SendResult where
  | ok
  | cancelled
  | timeout
deriving DecidableEq, Repr

/-- The method `SendMessage`: one `select` over the context, the send on
`b.input` and a 100ms timer.  `pick` is consulted only when both the context and
the send are ready. -/
def SendMessage (pick : Pick) (b : Broker) (msg : Message) : Broker × SendResult :=
  match b.ctxDone, decide (b.input.length < inputCap), pick with
  | true, false, _ => (b, .cancelled)
  | true, true, .ctx => (b, .cancelled)
  | true, true, .chan => ({ b with input := b.input ++ [msg] }, .ok)
  | false, true, _ => ({ b with input := b.input ++ [msg] }, .ok)
  | false, false, _ => (b, .timeout)

/-- Calls of `SendMessage` made one after the other by the producers, with the
result of each. -/
def sendMany (pick : Pick) : List Message → Broker → Broker × List SendResult
  | [], b => (b, [])
  | msg :: rest, b =>
    let r := SendMessage pick b msg
    let s := sendMany pick rest r.1
    (s.1, r.2 :: s.2)

/-- Turns of the loop of `Run`, one per reading of the clock in `nows`, for as
long as a message is dispatched.  Returns the broker, the queues and the log of
each turn, in the order of the turns. -/
def Run.iters (pick : Pick) : List Int → Broker → Heap → Broker × Heap × List (List Attempt)
  | [], b, h => (b, h, [])
  | now :: nows, b, h =>
    match Run.iter now pick b h with
    | .dispatched b' h' log =>
      let r := Run.iters pick nows b' h'
      (r.1, r.2.1, log :: r.2.2)
    | _ => (b, h, [])

/-- The messages dispatched one after the other, each with its own reading of
the clock, on a fixed registry: the queues, and the log of each message. -/
def dispatchSeq (users : List (String × ChanId)) :
    List (Message × Int) → Heap → Heap × List (List Attempt)
  | [], h => (h, [])
  | (msg, now) :: rest, h =>
    let r := fanOut users h (stamp now msg)
    let s := dispatchSeq users rest r.1
    (s.1, r.2 :: s.2)

/-- What a queue gains from messages dispatched in order: for each message, as
many copies as its log delivered to the queue. -/
def gained (c : ChanId) : List (Message × Int) → List (List Attempt) → List Message
  | (msg, now) :: rest, log :: logs =>
    List.replicate (copies log c) (stamp now msg) ++ gained c rest logs
  | _, _ => []

/-! ### The goroutines of the broker under `usersMutex`

`RegisterUser`, `UnregisterUser` and the body of `Run` for one message, cut
into the steps between which other goroutines may run.  `sync.RWMutex` is its
counter of read locks and its write flag: `Lock` proceeds when neither a read
lock nor the write lock is held, `RLock` when the write lock is not held.  (Go
also holds a new `RLock` back while a `Lock` is waiting; that only removes
schedules.)  A goroutine whose next step cannot proceed takes no step. -/

/-- A call of `RegisterUser` or of `UnregisterUser` made by some goroutine. -/
inductive Call where
  | register (userID : String) (recv : ChanId)
  | unregister (userID : String)
deriving DecidableEq, Repr

/-- The statement the call runs on the broker between `Lock` and `Unlock`. -/
def Call.write (c : Call) (b : Broker) : Broker :=
  match c with
  | .register userID recv => RegisterUser b userID recv
  | .unregister userID => UnregisterUser b userID

/-- Where a goroutine that runs a `Call` stands. -/
inductive CallPc where
  /-- Before `b.usersMutex.Lock()`. -/
  | start
  /-- `Lock` has returned; the map statement is next. -/
  | locked
  /-- The map statement has run; the deferred `Unlock` is next. -/
  | written
  /-- The call has returned. -/
  | returned
deriving DecidableEq, Repr

/-- Whether the goroutine holds the write lock. -/
def CallPc.inCrit : CallPc → Bool
  | .locked => true
  | .written => true
  | _ => false

/-- Where the goroutine of `Run` stands in the body for one message. -/
inductive RunPc where
  /-- At line 60, before `b.usersMutex.RLock()`. -/
  | start
  /-- `RLock` has returned and `pos` steps of the fan-out are done. -/
  | reading (pos : Nat)
  /-- `RUnlock` has returned. -/
  | finished
deriving DecidableEq, Repr

/-- The goroutines: the one of `Run`, and one per call. -/
inductive Tid where
  | run
  | call (i : Nat)
deriving DecidableEq, Repr

/-- The state shared by the goroutines.  `writes` and `snap` are history kept
for the proofs: the calls whose map statement has run, in that order, and the
registry as it was when `RLock` returned. -/
structure World where
  b : Broker
  heap : Heap
  log : List Attempt
  readers : Nat
  writer : Bool
  callPc : Nat → CallPc
  runPc : RunPc
  writes : List Nat
  snap : List (String × ChanId)

/-- The state in which no goroutine has started. -/
def World.init (b : Broker) (h : Heap) : World :=
  { b := b, heap := h, log := [], readers := 0, writer := false,
    callPc := fun _ => CallPc.start, runPc := RunPc.start, writes := [], snap := [] }

/-- One step of the goroutine `t`, or `none` when it cannot proceed.  `calls i`
is the call the goroutine `i` makes and `msg` the stamped message `Run` is
dispatching. -/
def step (calls : Nat → Call) (msg : Message) (w : World) : Tid → Option World
  | .call i =>
    match w.callPc i with
    | .start =>
      if w.writer = false ∧ w.readers = 0 then
        some { w with writer := true, callPc := Function.update w.callPc i CallPc.locked }
      else none
    | .locked =>
      some { w with b := (calls i).write w.b, writes := w.writes ++ [i],
                    callPc := Function.update w.callPc i CallPc.written }
    | .written =>
      some { w with writer := false, callPc := Function.update w.callPc i CallPc.returned }
    | .returned => none
  | .run =>
    match w.runPc with
    | .start =>
      if w.writer = false then
        some { w with readers := w.readers + 1, runPc := RunPc.reading 0, snap := w.b.users }
      else none
    | .reading pos =>
      if msg.Broadcast then
        match w.b.users.get? pos with
        | some (u, ch) =>
          some { w with heap := (trySend w.heap ch msg).1,
                        log := w.log ++ [⟨u, ch, (trySend w.heap ch msg).2⟩],
                        runPc := RunPc.reading (pos + 1) }
        | none => some { w with readers := w.readers - 1, runPc := RunPc.finished }
      else
        match pos with
        | 0 =>
          match GoMap.get w.b.users msg.Recipient with
          | some ch =>
            some { w with heap := (trySend w.heap ch msg).1,
                          log := w.log ++ [⟨msg.Recipient, ch, (trySend w.heap ch msg).2⟩],
                          runPc := RunPc.reading 1 }
          | none => some { w with runPc := RunPc.reading 1 }
        | _ + 1 => some { w with readers := w.readers - 1, runPc := RunPc.finished }
    | .finished => none

/-- The goroutines run in the order of the schedule; one that cannot proceed
when its turn comes is passed over. -/
def exec (calls : Nat → Call) (msg : Message) : List Tid → World → World
  | [], w => w
  | t :: rest, w => exec calls msg rest ((step calls msg w t).getD w)

/-- What the fan-out has done after `pos` of its steps on the registry `users`. -/
def fanOutUpTo (users : List (String × ChanId)) (h : Heap) (msg : Message) (pos : Nat) :
    Heap × List Attempt :=
  if msg.Broadcast then sendAll msg (users.take pos) h
  else if pos = 0 then (h, []) else fanOut users h msg

/-- What holds in every state the goroutines can reach from `World.init b₀ h₀`:
a goroutine between `Lock` and `Unlock` holds the write lock, there is at most
one such goroutine, no read lock is held while the write lock is, `Run` holds
its read lock exactly while it fans out, the registry is then the one it found
at `RLock`, its progress is that of `fanOut` on that registry, and the broker is
the result of the map statements run so far. -/
def Inv (calls : Nat → Call) (msg : Message) (b₀ : Broker) (h₀ : Heap) (w : World) : Prop :=
  (∀ i, (w.callPc i).inCrit = true → w.writer = true) ∧
  (∀ i j, (w.callPc i).inCrit = true → (w.callPc j).inCrit = true → i = j) ∧
  (w.writer = true → w.readers = 0) ∧
  (match w.runPc with
    | .start => w.readers = 0 ∧ w.heap = h₀ ∧ w.log = []
    | .reading pos =>
      w.readers = 1 ∧ w.b.users = w.snap ∧ (w.heap, w.log) = fanOutUpTo w.snap h₀ msg pos
    | .finished => w.readers = 0 ∧ (w.heap, w.log) = fanOut w.snap h₀ msg) ∧
  w.b = (w.writes.map calls).foldl (fun b c => c.write b) b₀ ∧
  (∀ i, (w.callPc i = CallPc.written ∨ w.callPc i = CallPc.returned) → i ∈ w.writes)

end chatcore

/-! ## lab01 `user` -/

namespace lab01.user

/-- The regular expressions the pattern of `IsValidEmail` is built from: a
character class, concatenation, alternation and repetition. -/
inductive Re where
  | none
  | eps
  | cls (p : Char → Bool)
  | seq (a b : Re)
  | alt (a b : Re)
  | star (a : Re)

/-- Whether the expression matches the empty text. -/
def Re.nullable : Re → Bool
  | .none => false
  | .eps => true
  | .cls _ => false
  | .seq a b => a.nullable && b.nullable
  | .alt a b => a.nullable || b.nullable
  | .star _ => true

/-- The expression for what may follow the character `c`. -/
def Re.deriv (c : Char) : Re → Re
  | .none => .none
  | .eps => .none
  | .cls p => if p c then .eps else .none
  | .seq a b =>
    if a.nullable then .alt (.seq (a.deriv c) b) (b.deriv c) else .seq (a.deriv c) b
  | .alt a b => .alt (a.deriv c) (b.deriv c)
  | .star a => .seq (a.deriv c) (.star a)

/-- Whether the whole text matches the expression (the pattern is anchored by
`^` and `$`). -/
def Re.matchesAll (r : Re) (text : List Char) : Bool :=
  (text.foldl (fun r c => r.deriv c) r).nullable

/-- The repetition `a+`. -/
def Re.plus (a : Re) : Re := .seq a (.star a)

/-- The class `[a-zA-Z0-9._%+-]`. -/
def localChar (c : Char) : Bool :=
  c.isAlphanum || c = '.' || c = '_' || c = '%' || c = '+' || c = '-'

/-- The class `[a-zA-Z0-9.-]`. -/
def domainChar (c : Char) : Bool :=
  c.isAlphanum || c = '.' || c = '-'

/-- The pattern `^[a-zA-Z0-9._%+-]+@[a-zA-Z0-9.-]+\.[a-zA-Z]{2,}$`. -/
def emailRegex : Re :=
  .seq (Re.plus (.cls localChar))
    (.seq (.cls (fun c => c = '@'))
      (.seq (Re.plus (.cls domainChar))
        (.seq (.cls (fun c => c = '.'))
          (.seq (.cls Char.isAlpha) (.seq (.cls Char.isAlpha) (.star (.cls Char.isAlpha)))))))

/-- The predefined errors `ErrInvalidName`, `ErrInvalidAge`, `ErrInvalidEmail`. -/
inductive Error where
  | ErrInvalidName
  | ErrInvalidAge
  | ErrInvalidEmail
deriving DecidableEq, Repr

/-- The struct `User`. -/
structure User where
  Name : String
  Age : Int
  Email : String
deriving DecidableEq, Repr

/-- The function `IsValidEmail`: `emailRegex.MatchString(email)`. -/
def IsValidEmail (email : String) : Bool :=
  emailRegex.matchesAll email.data

/-- The function `IsValidName`: `len(name) > 0 && len(name) <= 30`, where `len`
of a Go string is its number of bytes (UTF-8). -/
def IsValidName (name : String) : Bool :=
  decide (name.utf8ByteSize > 0) && decide (name.utf8ByteSize ≤ 30)

/-- The function `IsValidAge`: `age >= 0 && age <= 150`. -/
def IsValidAge (age : Int) : Bool :=
  decide (age ≥ 0) && decide (age ≤ 150)

/-- The method `Validate`: `none` is the `nil` error. -/
def User.Validate (u : User) : Option Error :=
  if !IsValidName u.Name then some .ErrInvalidName
  else if !IsValidAge u.Age then some .ErrInvalidAge
  else if !IsValidEmail u.Email then some .ErrInvalidEmail
  else none

/-- The function `NewUser`: the user, or the `nil` user with the error of
`Validate`. -/
def NewUser (name : String) (age : Int) (email : String) : Except Error User :=
  let user : User := { Name := name, Age := age, Email := email }
  match user.Validate with
  | some err => .error err
  | none => .ok user

end lab01.user

namespace lab01.user

/-- Whether some character class of the expression holds of the character. -/
def Re.accepts : Re → Char → Bool
  | .none, _ => false
  | .eps, _ => false
  | .cls p, c => p c
  | .seq a b, c => a.accepts c || b.accepts c
  | .alt a b, c => a.accepts c || b.accepts c
  | .star a, c => a.accepts c

/-- An expression that, by its shape, matches no text. -/
def Re.void : Re → Bool
  | .none => true
  | .eps => false
  | .cls _ => false
  | .seq a b => a.void || b.void
  | .alt a b => a.void && b.void
  | .star _ => false

/-- The relation `Sim f r r'`: whenever `r` matches a text, `r'` matches the
text with `f` applied to each of its characters.  It is kept by `Re.deriv`. -/
inductive Re.Sim (f : Char → Char) : Re → Re → Prop where
  | none (r : Re) : Re.Sim f .none r
  | eps : Re.Sim f .eps .eps
  | cls (p p' : Char → Bool) (h : ∀ c, p c = true → p' (f c) = true) :
    Re.Sim f (.cls p) (.cls p')
  | seq {a a' b b' : Re} : Re.Sim f a a' → Re.Sim f b b' → Re.Sim f (.seq a b) (.seq a' b')
  | alt {a a' b b' : Re} : Re.Sim f a a' → Re.Sim f b b' → Re.Sim f (.alt a b) (.alt a' b')
  | star {a a' : Re} : Re.Sim f a a' → Re.Sim f (.star a) (.star a')
  | inl {r r₁ : Re} (r₂ : Re) : Re.Sim f r r₁ → Re.Sim f r (.alt r₁ r₂)

end lab01.user

/-! ## lab01 `taskmanager` -/

namespace lab01.taskmanager

/-- The predefined errors `ErrTaskNotFound` and `ErrEmptyTitle`. -/
inductive Error where
  | ErrTaskNotFound
  | ErrEmptyTitle
deriving DecidableEq, Repr

/-- The struct `Task`; a `time.Time` is an instant counted from the zero time. -/
structure Task where
  ID : Int
  Title : String
  Description : String
  Done : Bool
  CreatedAt : Int
deriving DecidableEq, Repr

/-- The largest value of a Go `int` (64 bits). -/
def maxInt : Int := 9223372036854775807

/-- The smallest value of a Go `int` (64 bits). -/
def minInt : Int := -9223372036854775808

/-- The value a Go `int` takes when the integer `x` is stored in it: arithmetic
on `int` wraps around at 64 bits. -/
def wrapInt (x : Int) : Int := (x + 9223372036854775808) % 18446744073709551616 - 9223372036854775808

/-- The struct `TaskManager`.  `nextID` and the keys of `tasks` are Go `int`s. -/
structure TaskManager where
  tasks : List (Int × Task)
  nextID : Int
deriving DecidableEq, Repr

/-- The function `NewTaskManager`. -/
def NewTaskManager : TaskManager := { tasks := [], nextID := 1 }

/-- The method `AddTask`; `now` is `time.Now()`.  Returns the manager after the
call and the result.  `tm.nextID++` is the increment of a Go `int`. -/
def TaskManager.AddTask (tm : TaskManager) (title description : String) (now : Int) :
    TaskManager × Except Error Task :=
  if title = "" then
    (tm, .error .ErrEmptyTitle)
  else
    let task : Task :=
      { ID := tm.nextID, Title := title, Description := description, Done := false,
        CreatedAt := now }
    ({ tasks := GoMap.set tm.tasks tm.nextID task, nextID := wrapInt (tm.nextID + 1) },
      .ok task)

/-- The method `GetTask`. -/
def TaskManager.GetTask (tm : TaskManager) (id : Int) : Except Error Task :=
  match GoMap.get tm.tasks id with
  | some task => .ok task
  | none => .error .ErrTaskNotFound

end lab01.taskmanager

namespace lab01.taskmanager

/-- The method `UpdateTask`.  Returns the manager after the call and the error
(`none` is `nil`). -/
def TaskManager.UpdateTask (tm : TaskManager) (id : Int) (title description : String)
    (done : Bool) : TaskManager × Option Error :=
  if title = "" then
    (tm, some .ErrEmptyTitle)
  else
    match GoMap.get tm.tasks id with
    | none => (tm, some .ErrTaskNotFound)
    | some task =>
      let updated : Task :=
        { task with Title := title, Description := description, Done := done }
      ({ tm with tasks := GoMap.set tm.tasks id updated }, none)

/-- The method `DeleteTask`. -/
def TaskManager.DeleteTask (tm : TaskManager) (id : Int) : TaskManager × Option Error :=
  match GoMap.get tm.tasks id with
  | none => (tm, some .ErrTaskNotFound)
  | some _ => ({ tm with tasks := GoMap.del tm.tasks id }, none)

/-- The test `filterDone == nil || task.Done == *filterDone` of `ListTasks`. -/
def keeps (filterDone : Option Bool) (task : Task) : Bool :=
  match filterDone with
  | none => true
  | some d => task.Done == d

/-- The method `ListTasks`: the `range` loop appends every task that passes the
test to `result`.  Returns the manager, which the method only reads, and
`result`. -/
def TaskManager.ListTasks (tm : TaskManager) (filterDone : Option Bool) :
    TaskManager × List Task :=
  (tm, tm.tasks.foldl
    (fun result e => if keeps filterDone e.2 then result ++ [e.2] else result) [])

end lab01.taskmanager

/-! ## lab02 `message` -/

namespace message

/-- The struct `Message` of the package `message`. -/
structure Message where
  Sender : String
  Content : String
  Timestamp : Int
deriving DecidableEq, Repr

/-- The struct `MessageStore`: the slice `messages` (the mutex is not part of
the sequential state). -/
structure MessageStore where
  messages : List Message
deriving DecidableEq, Repr

/-- The function `NewMessageStore`. -/
def NewMessageStore : MessageStore := { messages := [] }

/-- The method `AddMessage`: the store after the call and the error returned,
`none` being `nil`. -/
def MessageStore.AddMessage (s : MessageStore) (msg : Message) :
    MessageStore × Option String :=
  ({ messages := s.messages ++ [msg] }, none)

/-- The method `GetMessages`: the store, which the method only reads, the
slice returned and the error returned.  For the empty `user` the slice is a
copy of `messages`; otherwise the `range` loop appends the messages whose
`Sender` is `user`. -/
def MessageStore.GetMessages (s : MessageStore) (user : String) :
    MessageStore × List Message × Option String :=
  if user = "" then
    (s, s.messages, none)
  else
    (s, s.messages.foldl
      (fun result msg => if msg.Sender = user then result ++ [msg] else result) [], none)

/-- Calls of `AddMessage` one after the other, with the error of each. -/
def addMany : List Message → MessageStore → MessageStore × List (Option String)
  | [], s => (s, [])
  | msg :: rest, s =>
    let r := s.AddMessage msg
    let t := addMany rest r.1
    (t.1, r.2 :: t.2)

end message

/-! ## lab04 `models`: posts -/

namespace lab04.models

/-- The struct `Post`; a `time.Time` is an instant counted from the zero time. -/
structure Post where
  ID : Int
  UserID : Int
  Title : String
  Content : String
  Published : Bool
  CreatedAt : Int
  UpdatedAt : Int
deriving DecidableEq, Repr

/-- The struct `CreatePostRequest`. -/
structure CreatePostRequest where
  UserID : Int
  Title : String
  Content : String
  Published : Bool
deriving DecidableEq, Repr

/-- The method `Post.Validate`: `none` is `nil`, and an error is its text.
`len` of a Go string is its number of bytes. -/
def Post.Validate (p : Post) : Option String :=
  if p.Title = "" ∨ p.Title.utf8ByteSize < 5 then
    some "title requires at least 5 characters"
  else if p.Published = true ∧ p.Content = "" then
    some "content must be provided for published posts"
  else if p.UserID ≤ 0 then
    some "user_id must be a positive integer"
  else none

/-- The method `CreatePostRequest.Validate`. -/
def CreatePostRequest.Validate (req : CreatePostRequest) : Option String :=
  if req.Title = "" ∨ req.Title.utf8ByteSize < 5 then
    some "title must have 5 or more characters"
  else if req.Published = true ∧ req.Content = "" then
    some "published posts require non-empty content"
  else if req.UserID ≤ 0 then
    some "user_id should be greater than zero"
  else none

/-- The method `ToPost`; `currentTime` is `time.Now()`.  `ID` keeps its zero value. -/
def CreatePostRequest.ToPost (req : CreatePostRequest) (currentTime : Int) : Post :=
  { ID := 0, UserID := req.UserID, Title := req.Title, Content := req.Content,
    Published := req.Published, CreatedAt := currentTime, UpdatedAt := currentTime }

end lab04.models

/-! ## lab04 `repository`: the statement built by `Update` -/

namespace lab04.repository

/-- The struct `models.UpdateUserRequest`: a nil pointer is `none`. -/
structure UpdateUserRequest where
  Name : Option String
  Email : Option String
deriving DecidableEq, Repr

/-- A value of the slice `params` (an `interface{}`): a string, a time or an
`int`. -/
inductive Param where
  | str (s : String)
  | time (t : Int)
  | int (n : Int)
deriving DecidableEq, Repr

/-- Lines 74-88 of `UserRepository.Update`: the text of the query and the
arguments passed with it to `QueryRow`.  `currentTime` is `time.Now()`. -/
def Update.build (id : Int) (req : UpdateUserRequest) (currentTime : Int) :
    String × List Param :=
  let setClauses₀ : List String := []
  let params₀ : List Param := []
  let setClauses₁ := match req.Name with
    | some _ => setClauses₀ ++ ["name = $1"]
    | none => setClauses₀
  let params₁ := match req.Name with
    | some name => params₀ ++ [Param.str name]
    | none => params₀
  let setClauses₂ := match req.Email with
    | some _ => setClauses₁ ++ ["email = $2"]
    | none => setClauses₁
  let params₂ := match req.Email with
    | some email => params₁ ++ [Param.str email]
    | none => params₁
  let setClauses₃ := setClauses₂ ++ ["updated_at = $3"]
  let params₃ := params₂ ++ [Param.time currentTime]
  let params₄ := params₃ ++ [Param.int id]
  ("UPDATE users SET " ++ ", ".intercalate setClauses₃
      ++ " WHERE id = $4 RETURNING id, name, email, created_at, updated_at",
    params₄)

/-- The placeholders `$1` ... `$9` that occur in a text, in the order in which
they occur. -/
def placeholders : List Char → List Nat
  | [] => []
  | c :: rest =>
    (match c, rest with
      | '$', d :: _ => if d.isDigit then [d.toNat - 48] else []
      | _, _ => []) ++ placeholders rest

/-- The `k`-th of the arguments, counted from one. -/
def kthArg (params : List Param) (k : Nat) : Option Param :=
  if k = 0 then none else params.get? (k - 1)

/-- The numbers of a list without repetition, in the order in which they first
occur. -/
def firstSeen : List Nat → List Nat
  | [] => []
  | k :: rest => k :: (firstSeen rest).filter (fun j => decide (j ≠ k))

/-- The argument bound to the placeholder `$k` of a query by SQLite with the
driver `go-sqlite3`, which `database/connection.go` opens (`sql.Open("sqlite3",
...)`).  There `$k` is a named parameter: the parameters of a statement are
numbered in the order in which they first appear in its text, and the
arguments, passed by position, are bound in that order.  `none` when `$k` does
not occur in the query or there are fewer arguments. -/
def sqliteBound (query : List Char) (params : List Param) (k : Nat) : Option Param :=
  if k ∈ firstSeen (placeholders query) then
    params.get? ((firstSeen (placeholders query)).indexOf k)
  else none

/-- The value that the text of the query pairs each placeholder with:
`name = $1`, `email = $2`, `updated_at = $3` and `id = $4`. -/
def intended (id : Int) (req : UpdateUserRequest) (currentTime : Int) : Nat → Option Param
  | 1 => req.Name.map Param.str
  | 2 => req.Email.map Param.str
  | 3 => some (Param.time currentTime)
  | 4 => some (Param.int id)
  | _ => none

end lab04.repository

/-! ## lab05 `userdomain` -/

namespace lab05.userdomain

/-- The predicate `unicode.IsSpace`, which `strings.TrimSpace` uses. -/
def isSpace (c : Char) : Bool :=
  let n := c.toNat
  (9 ≤ n && n ≤ 13) || n = 32 || n = 0x85 || n = 0xA0 || n = 0x1680 ||
    (0x2000 ≤ n && n ≤ 0x200A) || n = 0x2028 || n = 0x2029 || n = 0x202F || n = 0x205F ||
    n = 0x3000

/-- The characters left when the leading and the trailing white space is removed. -/
def trimList (l : List Char) : List Char :=
  ((l.dropWhile isSpace).reverse.dropWhile isSpace).reverse

/-- The function `strings.TrimSpace`. -/
def TrimSpace (s : String) : String := ⟨trimList s.data⟩

/-- The function `strings.ToLower`; `lower` is `unicode.ToLower`, the mapping of
the Unicode case tables. -/
def ToLower (lower : Char → Char) (s : String) : String := ⟨s.data.map lower⟩

/-- The pattern of `ValidateEmail`, which is the pattern of lab01:
`^[a-zA-Z0-9._%+-]+@[a-zA-Z0-9.-]+\.[a-zA-Z]{2,}$`. -/
def emailRegex : lab01.user.Re := lab01.user.emailRegex

/-- The function `ValidateEmail`: `none` is `nil`, and an error is its text. -/
def ValidateEmail (email : String) : Option String :=
  let cleanedEmail := TrimSpace email
  if cleanedEmail = "" then some "email is required"
  else if !emailRegex.matchesAll cleanedEmail.data then some "invalid email format"
  else none

/-- The function `ValidateName`. -/
def ValidateName (name : String) : Option String :=
  let cleanedName := TrimSpace name
  if cleanedName.utf8ByteSize < 2 ∨ cleanedName.utf8ByteSize > 50 then
    some "name must be 2-50 characters"
  else none

/-- The function `ValidatePassword`.  The patterns `[A-Z]`, `[a-z]` and `[0-9]`
are not anchored: each matches when some character of the password is in the
class. -/
def ValidatePassword (password : String) : Option String :=
  if password.utf8ByteSize < 8 then some "password must be at least 8 characters"
  else if !password.data.any Char.isUpper then
    some "password must contain at least one uppercase letter"
  else if !password.data.any Char.isLower then
    some "password must contain at least one lowercase letter"
  else if !password.data.any Char.isDigit then
    some "password must contain at least one number"
  else none

/-- The struct `User`. -/
structure User where
  ID : Int
  Email : String
  Name : String
  Password : String
  CreatedAt : Int
  UpdatedAt : Int
deriving DecidableEq, Repr

/-- The function `NewUser`; `currentTime` is `time.Now()`. -/
def NewUser (lower : Char → Char) (currentTime : Int) (email name password : String) :
    Except String User :=
  match ValidateEmail email with
  | some validationError => .error validationError
  | none =>
    match ValidateName name with
    | some validationError => .error validationError
    | none =>
      match ValidatePassword password with
      | some validationError => .error validationError
      | none =>
        .ok { ID := 0, Email := ToLower lower (TrimSpace email), Name := TrimSpace name,
              Password := password, CreatedAt := currentTime, UpdatedAt := currentTime }

/-- The method `User.Validate`. -/
def User.Validate (u : User) : Option String :=
  match ValidateEmail u.Email with
  | some emailError => some emailError
  | none =>
    match ValidateName u.Name with
    | some nameError => some nameError
    | none =>
      match ValidatePassword u.Password with
      | some passwordError => some passwordError
      | none => none

end lab05.userdomain

/-! ## Facts about Go maps -/

namespace GoMap

variable {κ α : Type} [DecidableEq κ]

theorem get_del_self (m : List (κ × α)) (k : κ) : get (del m k) k = none := by
  induction m with
  | nil => rfl
  | cons e rest ih =>
    obtain ⟨k', v⟩ := e
    by_cases hk : k' = k
    · simpa [del, hk] using ih
    · have : del ((k', v) :: rest) k = (k', v) :: del rest k := by simp [del, hk]
      rw [this]
      simp [get, hk, ih]

theorem get_del_of_ne (m : List (κ × α)) {k k' : κ} (hne : k' ≠ k) :
    get (del m k) k' = get m k' := by
  induction m with
  | nil => rfl
  | cons e rest ih =>
    obtain ⟨k₀, v⟩ := e
    by_cases hk : k₀ = k
    · have h1 : del ((k₀, v) :: rest) k = del rest k := by simp [del, hk]
      have h2 : k₀ ≠ k' := fun h => hne (h ▸ hk)
      rw [h1, ih]
      simp [get, h2]
    · have h1 : del ((k₀, v) :: rest) k = (k₀, v) :: del rest k := by simp [del, hk]
      rw [h1]
      simp [get, ih]

theorem get_set_self (m : List (κ × α)) (k : κ) (v : α) : get (set m k v) k = some v := by
  simp [set, get]

theorem get_set_of_ne (m : List (κ × α)) {k k' : κ} (v : α) (hne : k' ≠ k) :
    get (set m k v) k' = get m k' := by
  have h : k ≠ k' := fun e => hne e.symm
  simp [set, get, h, get_del_of_ne m hne]

theorem get_eq_none_iff (m : List (κ × α)) (k : κ) : get m k = none ↔ k ∉ keys m := by
  induction m with
  | nil => simp [get, keys]
  | cons e rest ih =>
    obtain ⟨k', v⟩ := e
    by_cases hk : k' = k
    · simp [get, keys, hk]
    · have hk' : ¬ k = k' := fun e => hk e.symm
      simpa [get, keys, hk, hk'] using ih

theorem del_of_get_none (m : List (κ × α)) (k : κ) (hk : get m k = none) : del m k = m := by
  have hmem := (get_eq_none_iff m k).1 hk
  unfold del
  rw [List.filter_eq_self]
  intro e he
  have : e.1 ≠ k := fun h => hmem (h ▸ List.mem_map_of_mem Prod.fst he)
  simpa using this

theorem del_del (m : List (κ × α)) (k : κ) : del (del m k) k = del m k :=
  del_of_get_none _ _ (get_del_self m k)

theorem del_set (m : List (κ × α)) (k : κ) (v : α) : del (set m k v) k = del m k := by
  have h : del (set m k v) k = del (del m k) k := by simp [set, del]
  rw [h, del_del]

theorem wf_del (m : List (κ × α)) (k : κ) (hm : Wf m) : Wf (del m k) := by
  unfold Wf keys del at *
  exact (List.Nodup.sublist ((List.filter_sublist m).map Prod.fst) hm)

theorem wf_set (m : List (κ × α)) (k : κ) (v : α) (hm : Wf m) : Wf (set m k v) := by
  have hd := wf_del m k hm
  have hk : k ∉ keys (del m k) := (get_eq_none_iff _ _).1 (get_del_self m k)
  unfold Wf keys set at *
  simpa using And.intro hk hd

end GoMap

/-! ## Facts about the fan-out of `Run` -/

namespace chatcore

theorem trySend_snd (h : Heap) (ch : ChanId) (msg : Message) :
    (trySend h ch msg).2 = (h ch).hasRoom := by
  unfold trySend
  split <;> simp_all

theorem trySend_cap (h : Heap) (ch : ChanId) (msg : Message) (c : ChanId) :
    ((trySend h ch msg).1 c).cap = (h c).cap := by
  unfold trySend
  split
  · by_cases hc : c = ch
    · subst hc
      simp
    · simp [Function.update, hc]
  · rfl

theorem trySend_buf (u : String) (h : Heap) (ch : ChanId) (msg : Message) (c : ChanId) :
    ((trySend h ch msg).1 c).buf
      = (h c).buf ++ List.replicate (copies [⟨u, ch, (trySend h ch msg).2⟩] c) msg := by
  unfold trySend copies
  split
  · by_cases hc : c = ch
    · subst hc
      simp [List.replicate]
    · have hc' : ¬ ch = c := fun e => hc e.symm
      simp [Function.update, hc, hc']
  · simp

theorem trySend_of_full (h : Heap) (ch : ChanId) (msg : Message)
    (hfull : (h ch).hasRoom = false) : trySend h ch msg = (h, false) := by
  simp [trySend, hfull]

theorem copies_cons (a : Attempt) (log : List Attempt) (c : ChanId) :
    copies (a :: log) c = copies [a] c + copies log c := by
  unfold copies
  by_cases h : (decide (a.chan = c) && a.delivered) = true
  · simp [List.filter_cons, h, Nat.add_comm]
  · simp [List.filter_cons, h]

theorem copies_single_le (a : Attempt) (c : ChanId) : copies [a] c ≤ 1 := by
  unfold copies
  exact le_trans (List.length_filter_le _ _) (by simp)

theorem copies_single_of_ne (a : Attempt) (c : ChanId) (hne : a.chan ≠ c) :
    copies [a] c = 0 := by
  simp [copies, hne]

theorem sendAll_cap (msg : Message) (users : List (String × ChanId)) (h : Heap) (c : ChanId) :
    ((sendAll msg users h).1 c).cap = (h c).cap := by
  induction users generalizing h with
  | nil => rfl
  | cons e rest ih =>
    obtain ⟨u, ch⟩ := e
    simp only [sendAll]
    rw [ih, trySend_cap]

theorem sendAll_buf (msg : Message) (users : List (String × ChanId)) (h : Heap) (c : ChanId) :
    ((sendAll msg users h).1 c).buf
      = (h c).buf ++ List.replicate (copies (sendAll msg users h).2 c) msg := by
  induction users generalizing h with
  | nil => simp [sendAll, copies]
  | cons e rest ih =>
    obtain ⟨u, ch⟩ := e
    simp only [sendAll]
    rw [ih, trySend_buf u, List.append_assoc, ← List.replicate_add]
    conv_rhs => rw [copies_cons]

theorem sendAll_log (msg : Message) (users : List (String × ChanId)) (h : Heap) :
    (sendAll msg users h).2.map (fun a => (a.user, a.chan)) = users := by
  induction users generalizing h with
  | nil => rfl
  | cons e rest ih =>
    obtain ⟨u, ch⟩ := e
    simp only [sendAll, List.map_cons, ih]

theorem copies_le_of_log (log : List Attempt) (users : List (String × ChanId)) (c : ChanId)
    (hlog : log.map (fun a => (a.user, a.chan)) = users) :
    copies log c ≤ (idsOf users c).length := by
  induction log generalizing users with
  | nil => simp [copies]
  | cons a rest ih =>
    subst hlog
    rw [copies_cons]
    have hrest := ih _ rfl
    by_cases hc : a.chan = c
    · have h1 := copies_single_le a c
      simp only [idsOf, List.map_cons, List.filter_cons, hc, decide_True, if_true,
        List.length_cons, List.length_map] at *
      omega
    · rw [copies_single_of_ne a c hc]
      simp only [idsOf, List.map_cons, List.filter_cons, hc, decide_False, List.length_map] at *
      simpa using hrest

end chatcore

namespace GoMap

variable {κ α : Type} [DecidableEq κ]

theorem mem_of_get (m : List (κ × α)) (k : κ) (v : α) (hget : get m k = some v) :
    (k, v) ∈ m := by
  induction m with
  | nil => simp [get] at hget
  | cons e rest ih =>
    obtain ⟨k', v'⟩ := e
    by_cases hk : k' = k
    · simp only [get, hk, if_true, Option.some.injEq] at hget
      simp [hk, hget]
    · simp only [get, hk, if_false] at hget
      exact List.mem_cons_of_mem _ (ih hget)

end GoMap

namespace chatcore

theorem stamp_fields (now : Int) (msg : Message) :
    (stamp now msg).Sender = msg.Sender ∧ (stamp now msg).Recipient = msg.Recipient ∧
      (stamp now msg).Content = msg.Content ∧ (stamp now msg).Broadcast = msg.Broadcast := by
  unfold stamp
  split <;> simp

theorem stamp_of_ne_zero (now : Int) (msg : Message) (ht : msg.Timestamp ≠ 0) :
    stamp now msg = msg := by
  simp [stamp, ht]

theorem stamp_of_zero (now : Int) (msg : Message) (ht : msg.Timestamp = 0) :
    (stamp now msg).Timestamp = now := by
  simp [stamp, ht]

theorem fanOut_broadcast (users : List (String × ChanId)) (h : Heap) (msg : Message)
    (hb : msg.Broadcast = true) : fanOut users h msg = sendAll msg users h := by
  simp [fanOut, hb]

theorem fanOut_unicast (users : List (String × ChanId)) (h : Heap) (msg : Message)
    (ch : ChanId) (hb : msg.Broadcast = false)
    (hget : GoMap.get users msg.Recipient = some ch) :
    fanOut users h msg
      = ((trySend h ch msg).1, [⟨msg.Recipient, ch, (trySend h ch msg).2⟩]) := by
  simp [fanOut, hb, hget]

theorem fanOut_unknown (users : List (String × ChanId)) (h : Heap) (msg : Message)
    (hb : msg.Broadcast = false) (hget : GoMap.get users msg.Recipient = none) :
    fanOut users h msg = (h, []) := by
  simp [fanOut, hb, hget]

theorem fanOut_cap (users : List (String × ChanId)) (h : Heap) (msg : Message) (c : ChanId) :
    ((fanOut users h msg).1 c).cap = (h c).cap := by
  cases hb : msg.Broadcast with
  | true => rw [fanOut_broadcast _ _ _ hb, sendAll_cap]
  | false =>
    cases hget : GoMap.get users msg.Recipient with
    | none => rw [fanOut_unknown _ _ _ hb hget]
    | some ch => rw [fanOut_unicast _ _ _ ch hb hget, trySend_cap]

theorem fanOut_buf (users : List (String × ChanId)) (h : Heap) (msg : Message) (c : ChanId) :
    ((fanOut users h msg).1 c).buf
      = (h c).buf ++ List.replicate (copies (fanOut users h msg).2 c) msg := by
  cases hb : msg.Broadcast with
  | true => rw [fanOut_broadcast _ _ _ hb, sendAll_buf]
  | false =>
    cases hget : GoMap.get users msg.Recipient with
    | none => simp [fanOut_unknown _ _ _ hb hget, copies]
    | some ch => rw [fanOut_unicast _ _ _ ch hb hget, trySend_buf msg.Recipient]

theorem fanOut_unicast_copies_le (users : List (String × ChanId)) (h : Heap) (msg : Message)
    (c : ChanId) (hb : msg.Broadcast = false) : copies (fanOut users h msg).2 c ≤ 1 := by
  cases hget : GoMap.get users msg.Recipient with
  | none => simp [fanOut_unknown _ _ _ hb hget, copies]
  | some ch =>
    rw [fanOut_unicast _ _ _ ch hb hget]
    exact copies_single_le _ _

theorem fanOut_copies_le (users : List (String × ChanId)) (h : Heap) (msg : Message)
    (c : ChanId) : copies (fanOut users h msg).2 c ≤ (idsOf users c).length := by
  cases hb : msg.Broadcast with
  | true =>
    rw [fanOut_broadcast _ _ _ hb]
    exact copies_le_of_log _ _ _ (sendAll_log msg users h)
  | false =>
    cases hget : GoMap.get users msg.Recipient with
    | none => simp [fanOut_unknown _ _ _ hb hget, copies]
    | some ch =>
      rw [fanOut_unicast _ _ _ ch hb hget]
      by_cases hc : ch = c
      · have hmem : msg.Recipient ∈ idsOf users c := by
          have := GoMap.mem_of_get users _ _ hget
          simp only [idsOf, List.mem_map, List.mem_filter, decide_eq_true_eq]
          exact ⟨(msg.Recipient, ch), ⟨this, hc⟩, rfl⟩
        exact le_trans (copies_single_le _ _) (List.length_pos_of_mem hmem)
      · rw [copies_single_of_ne _ _ hc]
        exact Nat.zero_le _

theorem sendAll_of_full (msg : Message) (users : List (String × ChanId)) (h : Heap)
    (hfull : ∀ e ∈ users, (h e.2).hasRoom = false) :
    (sendAll msg users h).1 = h ∧ ∀ a ∈ (sendAll msg users h).2, a.delivered = false := by
  induction users with
  | nil => simp [sendAll]
  | cons e rest ih =>
    obtain ⟨u, ch⟩ := e
    have h1 : trySend h ch msg = (h, false) :=
      trySend_of_full h ch msg (hfull (u, ch) (List.mem_cons_self _ _))
    have h2 := ih (fun e he => hfull e (List.mem_cons_of_mem _ he))
    simp only [sendAll, h1]
    refine ⟨h2.1, ?_⟩
    intro a ha
    rcases List.mem_cons.1 ha with rfl | ha'
    · rfl
    · exact h2.2 a ha'

theorem Run_iter_of_input (now : Int) (pick : Pick) (b : Broker) (h : Heap) (msg : Message)
    (rest : List Message) (hin : b.input = msg :: rest)
    (hgo : b.ctxDone = false ∨ pick = Pick.chan) :
    Run.iter now pick b h
      = .dispatched { b with input := rest } (dispatch now b h msg).1 (dispatch now b h msg).2 := by
  unfold Run.iter
  rcases hgo with hc | hp
  · simp [hc, hin]
  · cases hc : b.ctxDone <;> simp [hp, hin]

end chatcore

/-! ## The registry: `RegisterUser` and `UnregisterUser` -/

namespace chatcore

/-- C11, as stated, fails when the new queue is full.  The identifier "a" is
registered with the queue 0, which has capacity 1 and already holds one message;
the unicast message for "a" dispatched next is not put into the queue: the one
attempt is given up and the queue is as before. -/
theorem RegisterUser_then_full_queue_skipped :
    ((dispatch 5 (RegisterUser (NewBroker false) "a" 0)
          (constHeap [⟨"x", "a", "old", false, 1⟩] 1) ⟨"b", "a", "hi", false, 0⟩).1 0).buf
        = [⟨"x", "a", "old", false, 1⟩] ∧
      (dispatch 5 (RegisterUser (NewBroker false) "a" 0)
          (constHeap [⟨"x", "a", "old", false, 1⟩] 1) ⟨"b", "a", "hi", false, 0⟩).2
        = [⟨"a", 0, false⟩] := by
  decide

/-- C11, amended.  `RegisterUser b id q` has no error result; the registry it
yields maps `id` to `q`, maps every other identifier as before and keeps its keys
distinct, and the rest of the broker is untouched.  A unicast message for `id`
dispatched afterwards makes its one delivery attempt on `q`: the message is
appended to `q` when `q` has room and skipped otherwise, and no other queue (the
replaced handle among them, when it is not `q`) changes. -/
theorem RegisterUser_redirects (b : Broker) (id : String) (q : ChanId) :
    GoMap.get (RegisterUser b id q).users id = some q ∧
    (∀ id', id' ≠ id → GoMap.get (RegisterUser b id q).users id' = GoMap.get b.users id') ∧
    (GoMap.Wf b.users → GoMap.Wf (RegisterUser b id q).users) ∧
    ((RegisterUser b id q).input = b.input ∧ (RegisterUser b id q).ctxDone = b.ctxDone ∧
      (RegisterUser b id q).done = b.done) ∧
    ∀ (h : Heap) (msg : Message) (now : Int), msg.Broadcast = false → msg.Recipient = id →
      (dispatch now (RegisterUser b id q) h msg).2 = [⟨id, q, (h q).hasRoom⟩] ∧
      ((h q).hasRoom = true →
        ((dispatch now (RegisterUser b id q) h msg).1 q).buf = (h q).buf ++ [stamp now msg]) ∧
      ((h q).hasRoom = false → (dispatch now (RegisterUser b id q) h msg).1 = h) ∧
      (∀ c, c ≠ q → (dispatch now (RegisterUser b id q) h msg).1 c = h c) := by
  refine ⟨GoMap.get_set_self _ _ _, fun id' hne => GoMap.get_set_of_ne _ _ hne,
    fun hwf => GoMap.wf_set _ _ _ hwf, ⟨rfl, rfl, rfl⟩, ?_⟩
  intro h msg now hb hr
  have hb' : (stamp now msg).Broadcast = false := by rw [(stamp_fields now msg).2.2.2, hb]
  have hr' : (stamp now msg).Recipient = id := by rw [(stamp_fields now msg).2.1, hr]
  have hget : GoMap.get (RegisterUser b id q).users (stamp now msg).Recipient = some q := by
    rw [hr']
    exact GoMap.get_set_self _ _ _
  have hfan := fanOut_unicast (RegisterUser b id q).users h (stamp now msg) q hb' hget
  unfold dispatch
  rw [hfan, hr']
  refine ⟨by simp [trySend_snd], ?_, ?_, ?_⟩
  · intro hroom
    simp [trySend, hroom]
  · intro hfull
    simp [trySend, hfull]
  · intro c hc
    unfold trySend
    split
    · simp [Function.update, hc]
    · rfl

/-- C11, amended, at a concrete input: "a" is registered to the queue 1, then
re-registered to the empty queue 2 of capacity 1; the message goes to queue 2. -/
theorem RegisterUser_redirects_witness :
    ((dispatch 5 (RegisterUser (RegisterUser (NewBroker false) "a" 1) "a" 2) (emptyHeap 1)
        ⟨"b", "a", "hi", false, 0⟩).1 2).buf = [] ++ [stamp 5 ⟨"b", "a", "hi", false, 0⟩] :=
  ((RegisterUser_redirects (RegisterUser (NewBroker false) "a" 1) "a" 2).2.2.2.2
    (emptyHeap 1) ⟨"b", "a", "hi", false, 0⟩ 5 rfl rfl).2.1 (by decide)

/-- C12.  `UnregisterUser b id` has no error result; it removes the mapping of
`id`, leaves every other mapping and the rest of the broker as they were, and
keeps the keys distinct.  When `id` is not registered the broker is unchanged,
so a second `UnregisterUser` changes nothing, and `RegisterUser b id q` followed
by `UnregisterUser` on a registry without `id` gives back the broker `b`. -/
theorem UnregisterUser_removes_only_id (b : Broker) (id : String) :
    GoMap.get (UnregisterUser b id).users id = none ∧
    (∀ id', id' ≠ id → GoMap.get (UnregisterUser b id).users id' = GoMap.get b.users id') ∧
    (GoMap.Wf b.users → GoMap.Wf (UnregisterUser b id).users) ∧
    ((UnregisterUser b id).input = b.input ∧ (UnregisterUser b id).ctxDone = b.ctxDone ∧
      (UnregisterUser b id).done = b.done) ∧
    (GoMap.get b.users id = none → UnregisterUser b id = b) ∧
    UnregisterUser (UnregisterUser b id) id = UnregisterUser b id ∧
    (∀ q, GoMap.get b.users id = none → UnregisterUser (RegisterUser b id q) id = b) := by
  refine ⟨GoMap.get_del_self _ _, fun id' hne => GoMap.get_del_of_ne _ hne,
    fun hwf => GoMap.wf_del _ _ hwf, ⟨rfl, rfl, rfl⟩, ?_, ?_, ?_⟩
  · intro hnone
    cases b
    simp only [UnregisterUser, Broker.mk.injEq, true_and, and_true]
    exact GoMap.del_of_get_none _ _ hnone
  · cases b
    simp only [UnregisterUser, Broker.mk.injEq, true_and, and_true]
    exact GoMap.del_del _ _
  · intro q hnone
    cases b
    simp only [UnregisterUser, RegisterUser, Broker.mk.injEq, true_and, and_true]
    rw [GoMap.del_set]
    exact GoMap.del_of_get_none _ _ hnone

/-- C12 at a concrete input: registering "b" on a registry that holds only "a"
and unregistering it again gives the registry back. -/
theorem UnregisterUser_removes_only_id_witness :
    UnregisterUser (RegisterUser (RegisterUser (NewBroker false) "a" 1) "b" 2) "b"
      = RegisterUser (NewBroker false) "a" 1 :=
  (UnregisterUser_removes_only_id (RegisterUser (NewBroker false) "a" 1) "b").2.2.2.2.2.2 2
    (by decide)

end chatcore

/-! ## The dispatch iteration of `Run` -/

namespace chatcore

/-- C13, as stated, fails when one queue handle is registered under two
identifiers.  "a" and "b" are both registered with the queue 0 (empty, capacity
2); one broadcast puts two copies of the message into that queue. -/
theorem broadcast_shared_handle_two_copies :
    ((dispatch 7 (RegisterUser (RegisterUser (NewBroker false) "a" 0) "b" 0) (emptyHeap 2)
        ⟨"a", "", "hi", true, 0⟩).1 0).buf
      = [⟨"a", "", "hi", true, 7⟩, ⟨"a", "", "hi", true, 7⟩] := by
  decide

/-- C13, amended.  One dispatch of a message appends to every queue handle `c`
exactly the copies its delivered attempts put there, and these are at most one
per identifier registered with `c`: at most one copy for a unicast message, and
at most one copy for a broadcast when `c` is registered under one identifier. -/
theorem dispatch_at_most_one_copy_per_identifier (now : Int) (b : Broker) (h : Heap)
    (msg : Message) (c : ChanId) :
    ((dispatch now b h msg).1 c).buf
      = (h c).buf ++ List.replicate (copies (dispatch now b h msg).2 c) (stamp now msg) ∧
    copies (dispatch now b h msg).2 c ≤ (idsOf b.users c).length ∧
    (msg.Broadcast = false → copies (dispatch now b h msg).2 c ≤ 1) ∧
    ((idsOf b.users c).length ≤ 1 → copies (dispatch now b h msg).2 c ≤ 1) := by
  have hle := fanOut_copies_le b.users h (stamp now msg) c
  refine ⟨fanOut_buf _ _ _ _, hle, ?_, fun h1 => le_trans hle h1⟩
  intro hb
  have hb' : (stamp now msg).Broadcast = false := by rw [(stamp_fields now msg).2.2.2, hb]
  exact fanOut_unicast_copies_le _ _ _ _ hb'

/-- C13, amended, at a concrete input: "a" and "b" have queues of their own, and
the broadcast puts at most one copy into the queue of "b". -/
theorem dispatch_at_most_one_copy_per_identifier_witness :
    copies (dispatch 7 (RegisterUser (RegisterUser (NewBroker false) "a" 0) "b" 1) (emptyHeap 2)
        ⟨"a", "", "hi", true, 0⟩).2 1 ≤ 1 :=
  (dispatch_at_most_one_copy_per_identifier 7
    (RegisterUser (RegisterUser (NewBroker false) "a" 0) "b" 1) (emptyHeap 2)
    ⟨"a", "", "hi", true, 0⟩ 1).2.2.2 (by decide)

/-- C14.  A message that `SendMessage` accepts is stored in the input queue as
it was submitted.  When the loop takes the message `msg` off the input queue,
every message the iteration adds to a queue has the `Sender`, `Recipient`,
`Content` and `Broadcast` of `msg`; its `Timestamp` is that of `msg` when that
is not zero, and differs from it only when it was zero (and is then `now`). -/
theorem delivered_copies_keep_fields (now : Int) (pick : Pick) (b : Broker) (h : Heap)
    (msg : Message) (rest : List Message) (hin : b.input = msg :: rest)
    (hgo : b.ctxDone = false ∨ pick = Pick.chan) :
    (∀ (p : Pick) (b₀ : Broker) (m : Message), (SendMessage p b₀ m).2 = SendResult.ok →
      (SendMessage p b₀ m).1.input = b₀.input ++ [m]) ∧
    ∃ b' h' log, Run.iter now pick b h = Iter.dispatched b' h' log ∧
      ∀ (c : ChanId) (m' : Message), m' ∈ (h' c).buf.drop (h c).buf.length →
        m'.Sender = msg.Sender ∧ m'.Recipient = msg.Recipient ∧ m'.Content = msg.Content ∧
        m'.Broadcast = msg.Broadcast ∧
        (msg.Timestamp ≠ 0 → m'.Timestamp = msg.Timestamp) ∧
        (m'.Timestamp ≠ msg.Timestamp → msg.Timestamp = 0 ∧ m'.Timestamp = now) := by
  constructor
  · intro p b₀ m hok
    unfold SendMessage at *
    split at hok <;> simp_all
  · refine ⟨_, _, _, Run_iter_of_input now pick b h msg rest hin hgo, ?_⟩
    intro c m' hm'
    have hbuf := fanOut_buf b.users h (stamp now msg) c
    unfold dispatch at hm'
    rw [hbuf, List.drop_left] at hm'
    have hm : m' = stamp now msg := List.eq_of_mem_replicate hm'
    subst hm
    obtain ⟨h1, h2, h3, h4⟩ := stamp_fields now msg
    refine ⟨h1, h2, h3, h4, ?_, ?_⟩
    · intro ht
      rw [stamp_of_ne_zero now msg ht]
    · intro hne
      by_cases ht : msg.Timestamp = 0
      · exact ⟨ht, stamp_of_zero now msg ht⟩
      · exact absurd (by rw [stamp_of_ne_zero now msg ht]) hne

/-- C14 at a concrete input: "a" is registered with the empty queue 0, and the
unicast message for "a" with timestamp 42 is taken off the input queue. -/
theorem delivered_copies_keep_fields_witness :
    ∃ b' h' log,
      Run.iter 7 Pick.ctx
          { ctxDone := false, input := [⟨"b", "a", "hi", false, 42⟩], users := [("a", 0)],
            done := false } (emptyHeap 1)
        = Iter.dispatched b' h' log ∧
      ∀ (c : ChanId) (m' : Message), m' ∈ (h' c).buf.drop ((emptyHeap 1) c).buf.length →
        m'.Sender = "b" ∧ m'.Recipient = "a" ∧ m'.Content = "hi" ∧ m'.Broadcast = false ∧
        ((42 : Int) ≠ 0 → m'.Timestamp = 42) ∧
        (m'.Timestamp ≠ 42 → (42 : Int) = 0 ∧ m'.Timestamp = 7) :=
  (delivered_copies_keep_fields 7 Pick.ctx
    { ctxDone := false, input := [⟨"b", "a", "hi", false, 42⟩], users := [("a", 0)],
      done := false } (emptyHeap 1) ⟨"b", "a", "hi", false, 42⟩ [] rfl (Or.inl rfl)).2

/-- C15, as stated, fails when one queue handle is registered under two
identifiers: with "a" and "b" both registered with the queue 0 (capacity 3,
holding one message), the iteration that takes a broadcast off the input queue
leaves the queue with its old content followed by two copies of the message,
which is neither the old content nor the old content followed by the message. -/
theorem iteration_appends_two_copies :
    ∃ b' h' log,
      Run.iter 7 Pick.chan
          { ctxDone := false, input := [⟨"a", "", "hi", true, 0⟩],
            users := [("a", 0), ("b", 0)], done := false }
          (constHeap [⟨"x", "a", "old", false, 1⟩] 3)
        = Iter.dispatched b' h' log ∧
      (h' 0).buf = [⟨"x", "a", "old", false, 1⟩, ⟨"a", "", "hi", true, 7⟩,
        ⟨"a", "", "hi", true, 7⟩] ∧
      (h' 0).buf ≠ [⟨"x", "a", "old", false, 1⟩] ∧
      (h' 0).buf ≠ [⟨"x", "a", "old", false, 1⟩] ++ [stamp 7 ⟨"a", "", "hi", true, 0⟩] := by
  refine ⟨_, _, _, rfl, ?_, ?_, ?_⟩ <;> decide

/-- C15, amended.  The iteration of `Run` that takes the message `msg` off the
input queue leaves the registry, the context and `done` as they were and removes
`msg` from the input queue; every queue keeps its capacity and its content, in
order, followed by zero or more copies of the dispatched message, at most one
per identifier registered with that queue. -/
theorem Run_iter_only_appends (now : Int) (pick : Pick) (b : Broker) (h : Heap)
    (msg : Message) (rest : List Message) (hin : b.input = msg :: rest)
    (hgo : b.ctxDone = false ∨ pick = Pick.chan) :
    ∃ b' h' log, Run.iter now pick b h = Iter.dispatched b' h' log ∧
      b'.users = b.users ∧ b'.ctxDone = b.ctxDone ∧ b'.done = b.done ∧ b'.input = rest ∧
      ∀ c : ChanId, (h' c).cap = (h c).cap ∧
        ∃ k, k ≤ (idsOf b.users c).length ∧
          (h' c).buf = (h c).buf ++ List.replicate k (stamp now msg) := by
  refine ⟨_, _, _, Run_iter_of_input now pick b h msg rest hin hgo, rfl, rfl, rfl, rfl, ?_⟩
  intro c
  exact ⟨fanOut_cap _ _ _ _, _, fanOut_copies_le b.users h (stamp now msg) c,
    fanOut_buf _ _ _ _⟩

/-- C15, amended, at a concrete input: "a" and "b" have the queues 0 and 1, and a
broadcast is taken off the input queue. -/
theorem Run_iter_only_appends_witness :
    ∃ b' h' log,
      Run.iter 7 Pick.ctx
          { ctxDone := false, input := [⟨"a", "", "hi", true, 0⟩],
            users := [("a", 0), ("b", 1)], done := false } (emptyHeap 1)
        = Iter.dispatched b' h' log ∧
      b'.users = [("a", 0), ("b", 1)] ∧ b'.ctxDone = false ∧ b'.done = false ∧ b'.input = [] ∧
      ∀ c : ChanId, (h' c).cap = ((emptyHeap 1) c).cap ∧
        ∃ k, k ≤ (idsOf [("a", 0), ("b", 1)] c).length ∧
          (h' c).buf = ((emptyHeap 1) c).buf
            ++ List.replicate k (stamp 7 ⟨"a", "", "hi", true, 0⟩) :=
  Run_iter_only_appends 7 Pick.ctx
    { ctxDone := false, input := [⟨"a", "", "hi", true, 0⟩],
      users := [("a", 0), ("b", 1)], done := false } (emptyHeap 1)
    ⟨"a", "", "hi", true, 0⟩ [] rfl (Or.inl rfl)

/-- C16.  The fan-out of one message is a total function of the registry, the
queues and the message.  For a broadcast it makes exactly one attempt per entry
of the registry, in `range` order; for a unicast message it makes at most one
attempt.  Every attempt either appends the message or is given up, and there is
no second attempt: each queue gains exactly the copies of its delivered
attempts.  When every registered queue is full, all attempts are given up and
the fan-out still ends, with the queues unchanged. -/
theorem dispatch_one_attempt_each (now : Int) (b : Broker) (h : Heap) (msg : Message) :
    (msg.Broadcast = true →
      (dispatch now b h msg).2.map (fun a => (a.user, a.chan)) = b.users) ∧
    (msg.Broadcast = false → (dispatch now b h msg).2.length ≤ 1) ∧
    (∀ c : ChanId, ((dispatch now b h msg).1 c).buf
      = (h c).buf ++ List.replicate (copies (dispatch now b h msg).2 c) (stamp now msg)) ∧
    ((∀ e ∈ b.users, (h e.2).hasRoom = false) →
      (dispatch now b h msg).1 = h ∧ ∀ a ∈ (dispatch now b h msg).2, a.delivered = false) := by
  have hB : (stamp now msg).Broadcast = msg.Broadcast := (stamp_fields now msg).2.2.2
  refine ⟨?_, ?_, fun c => fanOut_buf _ _ _ _, ?_⟩
  · intro hb
    unfold dispatch
    rw [fanOut_broadcast _ _ _ (hB.trans hb)]
    exact sendAll_log _ _ _
  · intro hb
    unfold dispatch
    cases hget : GoMap.get b.users (stamp now msg).Recipient with
    | none => simp [fanOut_unknown _ _ _ (hB.trans hb) hget]
    | some ch => simp [fanOut_unicast _ _ _ ch (hB.trans hb) hget]
  · intro hfull
    unfold dispatch
    cases hb : (stamp now msg).Broadcast with
    | true =>
      rw [fanOut_broadcast _ _ _ hb]
      exact sendAll_of_full _ _ _ hfull
    | false =>
      cases hget : GoMap.get b.users (stamp now msg).Recipient with
      | none => simp [fanOut_unknown _ _ _ hb hget]
      | some ch =>
        have hmem := GoMap.mem_of_get _ _ _ hget
        have hf := hfull _ hmem
        rw [fanOut_unicast _ _ _ ch hb hget, trySend_of_full h ch _ hf]
        simp

/-- C16 at a concrete input: three identifiers whose queues are all full (the
capacity is 0); the broadcast makes its three attempts, gives each up and ends. -/
theorem dispatch_one_attempt_each_witness :
    (dispatch 7 (RegisterUser (RegisterUser (RegisterUser (NewBroker false) "a" 0) "b" 1) "c" 2)
        (emptyHeap 0) ⟨"a", "", "hi", true, 0⟩).2.map (fun a => (a.user, a.chan))
      = [("c", 2), ("b", 1), ("a", 0)] :=
  (dispatch_one_attempt_each 7
    (RegisterUser (RegisterUser (RegisterUser (NewBroker false) "a" 0) "b" 1) "c" 2)
    (emptyHeap 0) ⟨"a", "", "hi", true, 0⟩).1 rfl

end chatcore

/-! ## lab01 `user`: validation -/

namespace lab01.user

/-- C18: what the code does on a name written in Cyrillic.  The name has 23
characters, which is within the documented bound of 30, and `IsValidName`
rejects it: `len(name)` counts its 45 bytes. -/
theorem IsValidName_counts_bytes :
    IsValidName "Александр Александрович" = false ∧
      "Александр Александрович".length = 23 ∧
      "Александр Александрович".utf8ByteSize = 45 := by
  decide

/-- C19, as stated, fails: a user whose name and age are both invalid gets
`ErrInvalidName` from `Validate`, not `ErrInvalidAge`, and a user whose age and
email are both invalid gets `ErrInvalidAge`, not `ErrInvalidEmail`. -/
theorem Validate_reports_one_error :
    IsValidAge (-1) = false ∧
      User.Validate { Name := "", Age := -1, Email := "a@b.cd" } = some Error.ErrInvalidName ∧
      IsValidEmail "nobody" = false ∧
      User.Validate { Name := "Ann", Age := 200, Email := "nobody" } = some Error.ErrInvalidAge := by
  decide

/-- C19, amended.  `Validate` returns `nil` exactly when `IsValidName`,
`IsValidAge` (which holds exactly for `0 <= Age <= 150`) and `IsValidEmail` all
hold.  Otherwise it returns the error of the first invalid field in the order
name, age, email: `ErrInvalidName` whenever the name is invalid, `ErrInvalidAge`
whenever the name is valid and the age is not, `ErrInvalidEmail` whenever name
and age are valid and the email is not.  `NewUser` returns the user exactly
when `Validate` returns `nil`, and otherwise no user and the error of `Validate`. -/
theorem Validate_first_invalid_field (u : User) :
    (u.Validate = none ↔
      IsValidName u.Name = true ∧ IsValidAge u.Age = true ∧ IsValidEmail u.Email = true) ∧
    (IsValidAge u.Age = true ↔ 0 ≤ u.Age ∧ u.Age ≤ 150) ∧
    (IsValidName u.Name = false → u.Validate = some Error.ErrInvalidName) ∧
    (IsValidName u.Name = true → IsValidAge u.Age = false →
      u.Validate = some Error.ErrInvalidAge) ∧
    (IsValidName u.Name = true → IsValidAge u.Age = true → IsValidEmail u.Email = false →
      u.Validate = some Error.ErrInvalidEmail) ∧
    (u.Validate = none → NewUser u.Name u.Age u.Email = Except.ok u) ∧
    (∀ err, u.Validate = some err → NewUser u.Name u.Age u.Email = Except.error err) ∧
    (∀ v, NewUser u.Name u.Age u.Email = Except.ok v → v = u ∧ u.Validate = none) := by
  have hnew : ∀ r, u.Validate = r →
      NewUser u.Name u.Age u.Email
        = (match r with
          | some err => Except.error err
          | none => Except.ok u) := by
    intro r hr
    cases u
    simp only [NewUser] at *
    rw [hr]
  refine ⟨?_, ?_, ?_, ?_, ?_, ?_, ?_, ?_⟩
  · unfold User.Validate
    cases IsValidName u.Name <;> cases IsValidAge u.Age <;> cases IsValidEmail u.Email <;> simp
  · simp [IsValidAge]
  · intro h1
    simp [User.Validate, h1]
  · intro h1 h2
    simp [User.Validate, h1, h2]
  · intro h1 h2 h3
    simp [User.Validate, h1, h2, h3]
  · intro hv
    exact hnew none hv
  · intro err hv
    exact hnew (some err) hv
  · intro v hv
    cases hr : u.Validate with
    | none =>
      rw [hnew none hr] at hv
      exact ⟨(Except.ok.inj hv).symm, rfl⟩
    | some err =>
      rw [hnew (some err) hr] at hv
      cases hv

/-- C19, amended, at a concrete input: a valid name, the age 200 and a valid
email give `ErrInvalidAge`. -/
theorem Validate_first_invalid_field_witness :
    User.Validate { Name := "Ann", Age := 200, Email := "ann@example.com" }
      = some Error.ErrInvalidAge :=
  (Validate_first_invalid_field { Name := "Ann", Age := 200, Email := "ann@example.com" }).2.2.2.1
    (by decide) (by decide)

end lab01.user

/-! ## lab01 `taskmanager`: `AddTask` -/

namespace lab01.taskmanager

theorem wrapInt_of_inRange (x : Int) (hlo : minInt ≤ x) (hhi : x ≤ maxInt) : wrapInt x = x := by
  unfold wrapInt
  unfold minInt at hlo
  unfold maxInt at hhi
  omega

/-- C20, as stated, fails at the largest `int`.  In a manager whose `nextID` is
9223372036854775807 a task is added under that ID, and `nextID++` wraps around:
`nextID` is then -9223372036854775808, not one more than before. -/
theorem AddTask_nextID_wraps :
    (TaskManager.AddTask { tasks := [], nextID := 9223372036854775807 } "write" "" 0).2
        = Except.ok { ID := 9223372036854775807, Title := "write", Description := "",
                      Done := false, CreatedAt := 0 } ∧
      (TaskManager.AddTask { tasks := [], nextID := 9223372036854775807 } "write" "" 0).1.nextID
        = -9223372036854775808 ∧
      (TaskManager.AddTask { tasks := [], nextID := 9223372036854775807 } "write" "" 0).1.nextID
        ≠ 9223372036854775807 + 1 := by
  refine ⟨rfl, ?_, ?_⟩ <;> decide

/-- C20, amended.  `AddTask` returns `ErrEmptyTitle` exactly when the title is
empty, and then leaves the manager as it was.  Otherwise it returns the task
with the ID `nextID` had before the call, the given title and description and
`Done` false; the manager then maps that ID to the task and maps every other ID
as before, `GetTask` on the returned ID yields the task, and `nextID` is the Go
`int` after the old one: one larger whenever the old `nextID` is an `int` below
the largest. -/
theorem AddTask_spec (tm : TaskManager) (title description : String) (now : Int) :
    ((tm.AddTask title description now).2 = Except.error Error.ErrEmptyTitle ↔ title = "") ∧
    (title = "" → (tm.AddTask title description now).1 = tm) ∧
    (title ≠ "" →
      (tm.AddTask title description now).2
        = Except.ok { ID := tm.nextID, Title := title, Description := description,
                      Done := false, CreatedAt := now } ∧
      (tm.AddTask title description now).1.nextID = wrapInt (tm.nextID + 1) ∧
      (minInt ≤ tm.nextID → tm.nextID < maxInt →
        (tm.AddTask title description now).1.nextID = tm.nextID + 1) ∧
      GoMap.get (tm.AddTask title description now).1.tasks tm.nextID
        = some { ID := tm.nextID, Title := title, Description := description,
                 Done := false, CreatedAt := now } ∧
      (∀ id, id ≠ tm.nextID →
        GoMap.get (tm.AddTask title description now).1.tasks id = GoMap.get tm.tasks id) ∧
      (GoMap.Wf tm.tasks → GoMap.Wf (tm.AddTask title description now).1.tasks) ∧
      (tm.AddTask title description now).1.GetTask tm.nextID
        = Except.ok { ID := tm.nextID, Title := title, Description := description,
                      Done := false, CreatedAt := now }) := by
  by_cases ht : title = ""
  · simp [TaskManager.AddTask, ht]
  · refine ⟨by simp [TaskManager.AddTask, ht], fun h => absurd h ht, fun _ => ?_⟩
    have hadd : tm.AddTask title description now
        = ({ tasks := GoMap.set tm.tasks tm.nextID
                { ID := tm.nextID, Title := title, Description := description, Done := false,
                  CreatedAt := now },
             nextID := wrapInt (tm.nextID + 1) },
           Except.ok { ID := tm.nextID, Title := title, Description := description,
                       Done := false, CreatedAt := now }) := by
      simp [TaskManager.AddTask, ht]
    rw [hadd]
    refine ⟨rfl, rfl, ?_, GoMap.get_set_self _ _ _, fun id hne => GoMap.get_set_of_ne _ _ hne,
      fun hwf => GoMap.wf_set _ _ _ hwf, ?_⟩
    · intro hlo hhi
      exact wrapInt_of_inRange _ (by omega) (by omega)
    · simp [TaskManager.GetTask, GoMap.get_set_self]

/-- C20, amended, at a concrete input: the first task added to a new manager
gets the ID 1, and `nextID` goes from 1 to 2. -/
theorem AddTask_spec_witness :
    (NewTaskManager.AddTask "write" "the report" 99).1.nextID = NewTaskManager.nextID + 1 :=
  ((AddTask_spec NewTaskManager "write" "the report" 99).2.2 (by decide)).2.2.1 (by decide)
    (by decide)

end lab01.taskmanager

/-! ## The goroutines under `usersMutex` -/

namespace chatcore

theorem sendAll_append (msg : Message) (users : List (String × ChanId)) (u : String)
    (ch : ChanId) (h : Heap) :
    sendAll msg (users ++ [(u, ch)]) h
      = ((trySend (sendAll msg users h).1 ch msg).1,
          (sendAll msg users h).2 ++ [⟨u, ch, (trySend (sendAll msg users h).1 ch msg).2⟩]) := by
  induction users generalizing h with
  | nil => simp [sendAll]
  | cons e rest ih =>
    obtain ⟨u', ch'⟩ := e
    have hcons : (u', ch') :: rest ++ [(u, ch)] = (u', ch') :: (rest ++ [(u, ch)]) := rfl
    rw [hcons]
    simp only [sendAll]
    rw [ih]
    rfl

theorem fanOutUpTo_zero (users : List (String × ChanId)) (h : Heap) (msg : Message) :
    fanOutUpTo users h msg 0 = (h, []) := by
  unfold fanOutUpTo
  split <;> simp [sendAll]

theorem fanOutUpTo_succ_broadcast (users : List (String × ChanId)) (h : Heap) (msg : Message)
    (pos : Nat) (u : String) (ch : ChanId) (hb : msg.Broadcast = true)
    (hget : users.get? pos = some (u, ch)) :
    fanOutUpTo users h msg (pos + 1)
      = ((trySend (fanOutUpTo users h msg pos).1 ch msg).1,
          (fanOutUpTo users h msg pos).2
            ++ [⟨u, ch, (trySend (fanOutUpTo users h msg pos).1 ch msg).2⟩]) := by
  have htake : users.take (pos + 1) = users.take pos ++ [(u, ch)] := by
    rw [List.take_succ]
    simp only [List.get?_eq_getElem?] at hget
    simp [hget]
  simp only [fanOutUpTo, hb, if_true, htake, sendAll_append]

theorem fanOutUpTo_end_broadcast (users : List (String × ChanId)) (h : Heap) (msg : Message)
    (pos : Nat) (hb : msg.Broadcast = true) (hget : users.get? pos = none) :
    fanOutUpTo users h msg pos = fanOut users h msg := by
  have hlen : users.length ≤ pos := by
    simp only [List.get?_eq_getElem?] at hget
    exact List.getElem?_eq_none_iff.1 hget
  simp [fanOutUpTo, fanOut, hb, List.take_of_length_le hlen]

theorem fanOutUpTo_succ_unicast (users : List (String × ChanId)) (h : Heap) (msg : Message)
    (pos : Nat) (hb : msg.Broadcast = false) :
    fanOutUpTo users h msg (pos + 1) = fanOut users h msg := by
  simp [fanOutUpTo, hb]

theorem Inv_init (calls : Nat → Call) (msg : Message) (b : Broker) (h : Heap) :
    Inv calls msg b h (World.init b h) := by
  refine ⟨?_, ?_, ?_, ?_, ?_, ?_⟩ <;> simp [World.init, CallPc.inCrit]

end chatcore

namespace chatcore

theorem Inv_step_call (calls : Nat → Call) (msg : Message) (b₀ : Broker) (h₀ : Heap)
    (w w' : World) (i : Nat) (hinv : Inv calls msg b₀ h₀ w)
    (hstep : step calls msg w (Tid.call i) = some w') : Inv calls msg b₀ h₀ w' := by
  obtain ⟨ha, hb, hc, hd, he, hf⟩ := hinv
  simp only [step] at hstep
  cases hpc : w.callPc i with
  | start =>
    rw [hpc] at hstep
    simp only at hstep
    split at hstep
    · rename_i hfree
      obtain ⟨hw, hr⟩ := hfree
      cases hstep
      have hnone : ∀ j, (w.callPc j).inCrit = true → False := by
        intro j hj
        have := ha j hj
        rw [hw] at this
        cases this
      refine ⟨fun _ _ => rfl, ?_, fun _ => hr, hd, he, ?_⟩
      · intro j k hj hk
        by_cases hji : j = i
        · by_cases hki : k = i
          · rw [hji, hki]
          · simp only [Function.update_apply, hki, if_false] at hk
            exact absurd hk (fun h => hnone k h)
        · simp only [Function.update_apply, hji, if_false] at hj
          exact absurd hj (fun h => hnone j h)
      · intro j hj
        by_cases hji : j = i
        · subst hji
          simp [Function.update_apply] at hj
        · simp only [Function.update_apply, hji, if_false] at hj
          exact hf j hj
    · cases hstep
  | locked =>
    rw [hpc] at hstep
    simp only at hstep
    cases hstep
    have hi : (w.callPc i).inCrit = true := by rw [hpc]; rfl
    have hwr : w.writer = true := ha i hi
    have hrd : w.readers = 0 := hc hwr
    refine ⟨?_, ?_, hc, ?_, ?_, ?_⟩
    · intro j hj
      exact hwr
    · intro j k hj hk
      have hj' : (w.callPc j).inCrit = true := by
        by_cases hji : j = i
        · rw [hji]; exact hi
        · simpa only [Function.update_apply, hji, if_false] using hj
      have hk' : (w.callPc k).inCrit = true := by
        by_cases hki : k = i
        · rw [hki]; exact hi
        · simpa only [Function.update_apply, hki, if_false] using hk
      exact hb j k hj' hk'
    · cases hrun : w.runPc with
      | start =>
        rw [hrun] at hd
        simpa [hrun] using hd
      | reading pos =>
        rw [hrun] at hd
        have := hd.1
        omega
      | finished =>
        rw [hrun] at hd
        simpa [hrun] using hd
    · simp only [List.map_append, List.foldl_append, List.map_cons, List.map_nil,
        List.foldl_cons, List.foldl_nil]
      rw [← he]
    · intro j hj
      by_cases hji : j = i
      · subst hji
        simp
      · simp only [Function.update_apply, hji, if_false] at hj
        exact List.mem_append_left _ (hf j hj)
  | written =>
    rw [hpc] at hstep
    simp only at hstep
    cases hstep
    have hi : (w.callPc i).inCrit = true := by rw [hpc]; rfl
    have hnone : ∀ j, j ≠ i → (w.callPc j).inCrit = true → False :=
      fun j hji hj => hji (hb j i hj hi)
    have hupd : ∀ j, (Function.update w.callPc i CallPc.returned j).inCrit = true → False := by
      intro j hj
      by_cases hji : j = i
      · subst hji
        simp [CallPc.inCrit] at hj
      · simp only [Function.update_apply, hji, if_false] at hj
        exact hnone j hji hj
    refine ⟨fun j hj => absurd hj (fun h => hupd j h),
      fun j k hj _ => absurd hj (fun h => hupd j h), ?_, hd, he, ?_⟩
    · intro hcontra
      cases hcontra
    · intro j hj
      by_cases hji : j = i
      · subst hji
        exact hf j (Or.inl hpc)
      · simp only [Function.update_apply, hji, if_false] at hj
        exact hf j hj
  | returned =>
    rw [hpc] at hstep
    cases hstep

end chatcore

namespace chatcore

theorem Inv_step_run (calls : Nat → Call) (msg : Message) (b₀ : Broker) (h₀ : Heap)
    (w w' : World) (hinv : Inv calls msg b₀ h₀ w)
    (hstep : step calls msg w Tid.run = some w') : Inv calls msg b₀ h₀ w' := by
  obtain ⟨ha, hb, hc, hd, he, hf⟩ := hinv
  simp only [step] at hstep
  cases hrun : w.runPc with
  | start =>
    rw [hrun] at hstep hd
    simp only at hstep hd
    split at hstep
    · rename_i hfree
      cases hstep
      refine ⟨ha, hb, ?_, ?_, he, hf⟩
      · intro hcontra
        rw [hfree] at hcontra
        cases hcontra
      · obtain ⟨hr, hh, hl⟩ := hd
        refine ⟨by simp [hr], rfl, ?_⟩
        simp only [fanOutUpTo_zero, hh, hl]
    · cases hstep
  | reading pos =>
    rw [hrun] at hstep hd
    simp only at hstep hd
    obtain ⟨hr, hu, hprog⟩ := hd
    have hheap : w.heap = (fanOutUpTo w.snap h₀ msg pos).1 := congrArg Prod.fst hprog
    have hlog : w.log = (fanOutUpTo w.snap h₀ msg pos).2 := congrArg Prod.snd hprog
    have hwr : w.writer = true → False := by
      intro hcontra
      have := hc hcontra
      omega
    cases hbc : msg.Broadcast with
    | true =>
      rw [hbc] at hstep
      simp only [if_true] at hstep
      cases hget : w.b.users.get? pos with
      | some e =>
        obtain ⟨u, ch⟩ := e
        rw [hget] at hstep
        cases hstep
        refine ⟨ha, hb, hc, ?_, he, hf⟩
        refine ⟨hr, hu, ?_⟩
        rw [hu] at hget
        rw [fanOutUpTo_succ_broadcast _ _ _ _ u ch hbc hget, ← hheap, ← hlog]
      | none =>
        rw [hget] at hstep
        cases hstep
        refine ⟨ha, hb, ?_, ?_, he, hf⟩
        · intro _
          simp [hr]
        · refine ⟨by simp [hr], ?_⟩
          rw [hu] at hget
          rw [← fanOutUpTo_end_broadcast _ _ _ pos hbc hget]
          exact hprog
    | false =>
      rw [hbc] at hstep
      simp only [Bool.false_eq_true, if_false] at hstep
      cases pos with
      | zero =>
        simp only at hstep
        rw [fanOutUpTo_zero] at hheap hlog
        cases hget : GoMap.get w.b.users msg.Recipient with
        | some ch =>
          rw [hget] at hstep
          cases hstep
          refine ⟨ha, hb, hc, ?_, he, hf⟩
          refine ⟨hr, hu, ?_⟩
          rw [hu] at hget
          rw [fanOutUpTo_succ_unicast _ _ _ _ hbc, fanOut_unicast _ _ _ ch hbc hget, hheap, hlog]
          rfl
        | none =>
          rw [hget] at hstep
          cases hstep
          refine ⟨ha, hb, hc, ?_, he, hf⟩
          refine ⟨hr, hu, ?_⟩
          rw [hu] at hget
          rw [fanOutUpTo_succ_unicast _ _ _ _ hbc, fanOut_unknown _ _ _ hbc hget]
          exact Prod.ext hheap hlog
      | succ n =>
        simp only at hstep
        cases hstep
        refine ⟨ha, hb, ?_, ?_, he, hf⟩
        · intro _
          simp [hr]
        · refine ⟨by simp [hr], ?_⟩
          rw [← fanOutUpTo_succ_unicast _ _ _ n hbc]
          exact hprog
  | finished =>
    rw [hrun] at hstep
    cases hstep

theorem Inv_step (calls : Nat → Call) (msg : Message) (b₀ : Broker) (h₀ : Heap)
    (w w' : World) (t : Tid) (hinv : Inv calls msg b₀ h₀ w)
    (hstep : step calls msg w t = some w') : Inv calls msg b₀ h₀ w' := by
  cases t with
  | run => exact Inv_step_run calls msg b₀ h₀ w w' hinv hstep
  | call i => exact Inv_step_call calls msg b₀ h₀ w w' i hinv hstep

theorem Inv_exec (calls : Nat → Call) (msg : Message) (b₀ : Broker) (h₀ : Heap)
    (sched : List Tid) (w : World) (hinv : Inv calls msg b₀ h₀ w) :
    Inv calls msg b₀ h₀ (exec calls msg sched w) := by
  induction sched generalizing w with
  | nil => exact hinv
  | cons t rest ih =>
    simp only [exec]
    apply ih
    cases hstep : step calls msg w t with
    | none => exact hinv
    | some w' => exact Inv_step calls msg b₀ h₀ w w' t hinv hstep

end chatcore

namespace chatcore

theorem step_keeps_users_while_reading (calls : Nat → Call) (msg : Message) (w w' : World)
    (t : Tid) (pos : Nat) (hrun : w.runPc = RunPc.reading pos) (hr : w.readers = 1)
    (hcrit : ∀ i, (w.callPc i).inCrit = false)
    (hstep : step calls msg w t = some w') : w'.b.users = w.b.users := by
  cases t with
  | call i =>
    have hi := hcrit i
    simp only [step] at hstep
    cases hpc : w.callPc i with
    | start =>
      rw [hpc] at hstep
      simp only at hstep
      split at hstep
      · rename_i hfree
        omega
      · cases hstep
    | locked => rw [hpc] at hi; cases hi
    | written => rw [hpc] at hi; cases hi
    | returned =>
      rw [hpc] at hstep
      cases hstep
  | run =>
    simp only [step, hrun] at hstep
    split at hstep
    · split at hstep <;> cases hstep <;> rfl
    · split at hstep
      · split at hstep <;> cases hstep <;> rfl
      · cases hstep
        rfl

/-- C17.  In every state `w` that the goroutines of `RegisterUser`,
`UnregisterUser` and `Run` reach from a broker with a free `usersMutex`, under
any schedule: at most one call is between its `Lock` and `Unlock`; while `Run`
is between `RLock` and `RUnlock` no call is between `Lock` and `Unlock`, the
registry is the one `Run` found at `RLock`, and no step of any goroutine changes
it; when `Run` has finished, the queues and the attempts are those of `fanOut`
on the registry found at `RLock`.  The registry is always the result of the map
statements run so far, in the order of the lock, and these include the one of
every call that has returned; when `Run` takes its `RLock` it finds exactly
that registry. -/
theorem usersMutex_excludes (calls : Nat → Call) (msg : Message) (b : Broker) (h : Heap)
    (sched : List Tid) (w : World) (hw : w = exec calls msg sched (World.init b h)) :
    (∀ i j, (w.callPc i).inCrit = true → (w.callPc j).inCrit = true → i = j) ∧
    (∀ pos, w.runPc = RunPc.reading pos →
      (∀ i, (w.callPc i).inCrit = false) ∧ w.b.users = w.snap ∧
      ∀ t w', step calls msg w t = some w' → w'.b.users = w.snap) ∧
    (w.runPc = RunPc.finished → (w.heap, w.log) = fanOut w.snap h msg) ∧
    w.b = (w.writes.map calls).foldl (fun b c => c.write b) b ∧
    (∀ i, w.callPc i = CallPc.returned → i ∈ w.writes) ∧
    (w.runPc = RunPc.start → w.writer = false →
      ∃ w', step calls msg w Tid.run = some w' ∧ w'.runPc = RunPc.reading 0 ∧
        w'.snap = w.b.users) ∧
    (w.runPc = RunPc.start → w.writer = true → step calls msg w Tid.run = none) := by
  have hinv : Inv calls msg b h w := by
    rw [hw]
    exact Inv_exec calls msg b h sched _ (Inv_init calls msg b h)
  obtain ⟨ha, hb, hc, hd, he, hf⟩ := hinv
  refine ⟨hb, ?_, ?_, he, fun i hi => hf i (Or.inr hi), ?_, ?_⟩
  · intro pos hrun
    rw [hrun] at hd
    obtain ⟨hr, hu, _⟩ := hd
    have hcrit : ∀ i, (w.callPc i).inCrit = false := by
      intro i
      cases hi : (w.callPc i).inCrit with
      | false => rfl
      | true =>
        have := hc (ha i hi)
        omega
    refine ⟨hcrit, hu, ?_⟩
    intro t w' hstep
    rw [← hu]
    exact step_keeps_users_while_reading calls msg w w' t pos hrun hr hcrit hstep
  · intro hrun
    rw [hrun] at hd
    exact hd.2
  · intro hrun hfree
    simp [step, hrun, hfree]
  · intro hrun hheld
    simp [step, hrun, hheld]

/-- C17 at a concrete schedule.  "a" is registered with queue 0.  One goroutine
registers "b" with queue 1 and returns; `Run` then takes its read lock for a
broadcast; a second goroutine tries to unregister "a" while `Run` fans out and
gets its turn only after `RUnlock`.  The broadcast reaches both queues. -/
theorem usersMutex_excludes_witness :
    ((exec (fun i => if i = 0 then Call.register "b" 1 else Call.unregister "a")
        ⟨"a", "", "hi", true, 7⟩
        [Tid.call 0, Tid.call 0, Tid.call 0, Tid.run, Tid.call 1, Tid.run, Tid.call 1, Tid.run,
          Tid.run, Tid.call 1, Tid.call 1, Tid.call 1]
        (World.init (RegisterUser (NewBroker false) "a" 0) (emptyHeap 1))).heap,
      (exec (fun i => if i = 0 then Call.register "b" 1 else Call.unregister "a")
        ⟨"a", "", "hi", true, 7⟩
        [Tid.call 0, Tid.call 0, Tid.call 0, Tid.run, Tid.call 1, Tid.run, Tid.call 1, Tid.run,
          Tid.run, Tid.call 1, Tid.call 1, Tid.call 1]
        (World.init (RegisterUser (NewBroker false) "a" 0) (emptyHeap 1))).log)
      = fanOut
          (exec (fun i => if i = 0 then Call.register "b" 1 else Call.unregister "a")
            ⟨"a", "", "hi", true, 7⟩
            [Tid.call 0, Tid.call 0, Tid.call 0, Tid.run, Tid.call 1, Tid.run, Tid.call 1,
              Tid.run, Tid.run, Tid.call 1, Tid.call 1, Tid.call 1]
            (World.init (RegisterUser (NewBroker false) "a" 0) (emptyHeap 1))).snap
          (emptyHeap 1) ⟨"a", "", "hi", true, 7⟩ :=
  (usersMutex_excludes (fun i => if i = 0 then Call.register "b" 1 else Call.unregister "a")
    ⟨"a", "", "hi", true, 7⟩ (RegisterUser (NewBroker false) "a" 0) (emptyHeap 1)
    [Tid.call 0, Tid.call 0, Tid.call 0, Tid.run, Tid.call 1, Tid.run, Tid.call 1, Tid.run,
      Tid.run, Tid.call 1, Tid.call 1, Tid.call 1] _ rfl).2.2.1 (by decide)

end chatcore

/-! ## `SendMessage` and the outer `select` of `Run` -/

namespace chatcore

/-- C1, as stated, fails when the input queue has room.  The context of a new
broker is already cancelled and its input queue is empty; both the context case
and the send case of the `select` are ready, and when the send case is taken the
message is enqueued and `SendMessage` returns `nil`. -/
theorem SendMessage_after_cancel_may_enqueue :
    (SendMessage Pick.chan (NewBroker true) ⟨"a", "b", "hi", false, 0⟩).2 = SendResult.ok ∧
      (SendMessage Pick.chan (NewBroker true) ⟨"a", "b", "hi", false, 0⟩).1.input
        = [⟨"a", "b", "hi", false, 0⟩] := by
  decide

/-- C1, amended.  When the context is cancelled, `SendMessage` never returns the
timeout error.  It returns the closed-broker error and leaves the broker as it
was whenever the input queue is full, and whenever the `select` takes the
context case; when the queue has room the `select` may instead take the send
case, and then the message is enqueued and the result is `nil`. -/
theorem SendMessage_after_cancel (pick : Pick) (b : Broker) (msg : Message)
    (hdone : b.ctxDone = true) :
    (inputCap ≤ b.input.length → SendMessage pick b msg = (b, SendResult.cancelled)) ∧
    (pick = Pick.ctx → SendMessage pick b msg = (b, SendResult.cancelled)) ∧
    (b.input.length < inputCap → pick = Pick.chan →
      SendMessage pick b msg = ({ b with input := b.input ++ [msg] }, SendResult.ok)) ∧
    (SendMessage pick b msg).2 ≠ SendResult.timeout := by
  refine ⟨?_, ?_, ?_, ?_⟩
  · intro hfull
    have : ¬ b.input.length < inputCap := Nat.not_lt.2 hfull
    simp [SendMessage, hdone, this]
  · intro hp
    by_cases hroom : b.input.length < inputCap <;> simp [SendMessage, hdone, hp, hroom]
  · intro hroom hp
    simp [SendMessage, hdone, hp, hroom]
  · by_cases hroom : b.input.length < inputCap <;> cases pick <;>
      simp [SendMessage, hdone, hroom]

/-- C1, amended, at a concrete input: a cancelled broker with room in its input
queue, and the `select` takes the context case. -/
theorem SendMessage_after_cancel_witness :
    SendMessage Pick.ctx (NewBroker true) ⟨"a", "b", "hi", false, 0⟩
      = (NewBroker true, SendResult.cancelled) :=
  (SendMessage_after_cancel Pick.ctx (NewBroker true) ⟨"a", "b", "hi", false, 0⟩ rfl).2.1 rfl

/-- C9, as stated, fails when a message is waiting.  The context is cancelled,
one message waits in the input queue and "a" is registered with the empty queue
0; both cases of the `select` of `Run` are ready, and when the receive is taken
the iteration delivers the message to the queue of "a" and the loop goes on. -/
theorem Run_after_cancel_may_dispatch :
    ∃ b' h' log,
      Run.iter 7 Pick.chan
          { ctxDone := true, input := [⟨"b", "a", "hi", false, 0⟩], users := [("a", 0)],
            done := false } (emptyHeap 1)
        = Iter.dispatched b' h' log ∧
      (h' 0).buf = [⟨"b", "a", "hi", false, 7⟩] ∧ b'.done = false := by
  refine ⟨_, _, _, rfl, ?_, ?_⟩ <;> decide

/-- C9, amended.  When the context is cancelled at the start of an iteration of
`Run`, the iteration returns and closes `done`, with the queues untouched,
whenever no message is waiting and whenever the `select` takes the context case;
when a message is waiting the `select` may instead take the receive, and the
iteration then dispatches that message. -/
theorem Run_iter_after_cancel (now : Int) (pick : Pick) (b : Broker) (h : Heap)
    (hdone : b.ctxDone = true) :
    (b.input = [] → Run.iter now pick b h = Iter.stopped { b with done := true }) ∧
    (pick = Pick.ctx → Run.iter now pick b h = Iter.stopped { b with done := true }) ∧
    (∀ msg rest, b.input = msg :: rest → pick = Pick.chan →
      Run.iter now pick b h
        = Iter.dispatched { b with input := rest } (dispatch now b h msg).1
            (dispatch now b h msg).2) := by
  refine ⟨?_, ?_, ?_⟩
  · intro hin
    simp [Run.iter, hdone, hin]
  · intro hp
    cases hin : b.input <;> simp [Run.iter, hdone, hin, hp]
  · intro msg rest hin hp
    simp [Run.iter, hdone, hin, hp]

/-- C9, amended, at a concrete input: a cancelled broker with a message waiting,
and the `select` takes the context case. -/
theorem Run_iter_after_cancel_witness :
    Run.iter 7 Pick.ctx
        { ctxDone := true, input := [⟨"b", "a", "hi", false, 0⟩], users := [("a", 0)],
          done := false } (emptyHeap 1)
      = Iter.stopped
          { ctxDone := true, input := [⟨"b", "a", "hi", false, 0⟩], users := [("a", 0)],
            done := true } :=
  (Run_iter_after_cancel 7 Pick.ctx
    { ctxDone := true, input := [⟨"b", "a", "hi", false, 0⟩], users := [("a", 0)],
      done := false } (emptyHeap 1) rfl).2.1 rfl

end chatcore

namespace chatcore

theorem SendMessage_of_room (pick : Pick) (b : Broker) (msg : Message)
    (hctx : b.ctxDone = false) (hroom : b.input.length < inputCap) :
    SendMessage pick b msg = ({ b with input := b.input ++ [msg] }, SendResult.ok) := by
  simp [SendMessage, hctx, hroom]

theorem SendMessage_of_full (pick : Pick) (b : Broker) (msg : Message)
    (hctx : b.ctxDone = false) (hfull : inputCap ≤ b.input.length) :
    SendMessage pick b msg = (b, SendResult.timeout) := by
  have : ¬ b.input.length < inputCap := Nat.not_lt.2 hfull
  simp [SendMessage, hctx, this]

theorem sendMany_of_room (pick : Pick) (msgs : List Message) (b : Broker)
    (hctx : b.ctxDone = false) (hroom : b.input.length + msgs.length ≤ inputCap) :
    sendMany pick msgs b
      = ({ b with input := b.input ++ msgs }, List.replicate msgs.length SendResult.ok) := by
  induction msgs generalizing b with
  | nil => simp [sendMany]
  | cons m rest ih =>
    have h1 : b.input.length < inputCap := by
      simp only [List.length_cons] at hroom
      omega
    have h2 : ({ b with input := b.input ++ [m] } : Broker).input.length + rest.length
        ≤ inputCap := by
      simp only [List.length_append, List.length_cons, List.length_nil] at *
      omega
    simp only [sendMany, SendMessage_of_room pick b m hctx h1]
    rw [ih { b with input := b.input ++ [m] } hctx h2]
    simp [List.replicate_succ]

/-- C8.  `NewBroker` gives a broker with an empty registry, an empty input queue
and `done` open.  While the context is not cancelled and nothing takes messages
off the input queue, `SendMessage` returns `nil` and appends the message as long
as fewer than 100 messages are queued, and with 100 queued it returns the
timeout error and leaves the broker as it was; so the first 100 messages sent to
a new broker are all accepted, in order, and the next one is refused. -/
theorem NewBroker_input_queue (pick : Pick) :
    (∀ c, (NewBroker c).users = [] ∧ (NewBroker c).input = [] ∧
      (NewBroker c).done = false ∧ (NewBroker c).ctxDone = c) ∧
    (∀ (b : Broker) (msg : Message), b.ctxDone = false → b.input.length < 100 →
      SendMessage pick b msg = ({ b with input := b.input ++ [msg] }, SendResult.ok)) ∧
    (∀ (b : Broker) (msg : Message), b.ctxDone = false → 100 ≤ b.input.length →
      SendMessage pick b msg = (b, SendResult.timeout)) ∧
    (∀ msgs : List Message, msgs.length ≤ 100 →
      sendMany pick msgs (NewBroker false)
        = ({ NewBroker false with input := msgs },
            List.replicate msgs.length SendResult.ok)) ∧
    (∀ (msgs : List Message) (msg : Message), msgs.length = 100 →
      SendMessage pick (sendMany pick msgs (NewBroker false)).1 msg
        = ({ NewBroker false with input := msgs }, SendResult.timeout)) := by
  have hmany : ∀ msgs : List Message, msgs.length ≤ 100 →
      sendMany pick msgs (NewBroker false)
        = ({ NewBroker false with input := msgs },
            List.replicate msgs.length SendResult.ok) := by
    intro msgs hlen
    have := sendMany_of_room pick msgs (NewBroker false) rfl
      (by simpa [NewBroker, inputCap] using hlen)
    simpa [NewBroker] using this
  refine ⟨fun c => ⟨rfl, rfl, rfl, rfl⟩, ?_, ?_, hmany, ?_⟩
  · intro b msg hctx hroom
    exact SendMessage_of_room pick b msg hctx hroom
  · intro b msg hctx hfull
    exact SendMessage_of_full pick b msg hctx hfull
  · intro msgs msg hlen
    rw [hmany msgs (le_of_eq hlen)]
    exact SendMessage_of_full pick _ msg rfl (by simp [inputCap, hlen])

/-- C8 at a concrete input: a new broker accepts a first message. -/
theorem NewBroker_input_queue_witness :
    SendMessage Pick.ctx (NewBroker false) ⟨"a", "b", "hi", false, 0⟩
      = ({ NewBroker false with input := (NewBroker false).input ++ [⟨"a", "b", "hi", false, 0⟩] },
          SendResult.ok) :=
  (NewBroker_input_queue Pick.ctx).2.1 (NewBroker false) ⟨"a", "b", "hi", false, 0⟩ rfl
    (by decide)

/-- C2.  When the loop takes a unicast message off the input queue, its
recipient is registered with the queue `ch` and `ch` has room, the iteration
appends the message to `ch` and makes no other attempt; the copy has the fields
of the message, and its `Timestamp` is not zero (the clock `now` is not at the
zero of Unix time). -/
theorem unicast_delivered (now : Int) (pick : Pick) (b : Broker) (h : Heap) (msg : Message)
    (rest : List Message) (ch : ChanId) (hin : b.input = msg :: rest)
    (hgo : b.ctxDone = false ∨ pick = Pick.chan) (hb : msg.Broadcast = false)
    (hreg : GoMap.get b.users msg.Recipient = some ch) (hroom : (h ch).hasRoom = true)
    (hnow : now ≠ 0) :
    ∃ b' h' log, Run.iter now pick b h = Iter.dispatched b' h' log ∧
      (h' ch).buf = (h ch).buf ++ [stamp now msg] ∧
      log = [⟨msg.Recipient, ch, true⟩] ∧
      (stamp now msg).Timestamp ≠ 0 ∧
      (stamp now msg).Sender = msg.Sender ∧ (stamp now msg).Recipient = msg.Recipient ∧
      (stamp now msg).Content = msg.Content ∧ (stamp now msg).Broadcast = msg.Broadcast := by
  obtain ⟨h1, h2, h3, h4⟩ := stamp_fields now msg
  have hget : GoMap.get b.users (stamp now msg).Recipient = some ch := by rw [h2, hreg]
  have hfan := fanOut_unicast b.users h (stamp now msg) ch (h4.trans hb) hget
  refine ⟨_, _, _, Run_iter_of_input now pick b h msg rest hin hgo, ?_, ?_, ?_, h1, h2, h3, h4⟩
  · unfold dispatch
    rw [hfan]
    simp [trySend, hroom]
  · unfold dispatch
    rw [hfan, h2]
    simp [trySend, hroom]
  · by_cases ht : msg.Timestamp = 0
    · rw [stamp_of_zero now msg ht]
      exact hnow
    · rw [stamp_of_ne_zero now msg ht]
      exact ht

/-- C2 at a concrete input: "a" is registered with the empty queue 0 of capacity
1 and a message for "a" with timestamp 0 is taken off the input queue at time 7. -/
theorem unicast_delivered_witness :
    ∃ b' h' log,
      Run.iter 7 Pick.ctx
          { ctxDone := false, input := [⟨"b", "a", "hi", false, 0⟩], users := [("a", 0)],
            done := false } (emptyHeap 1)
        = Iter.dispatched b' h' log ∧
      (h' 0).buf = ((emptyHeap 1) 0).buf ++ [stamp 7 ⟨"b", "a", "hi", false, 0⟩] ∧
      log = [⟨"a", 0, true⟩] ∧
      (stamp 7 ⟨"b", "a", "hi", false, 0⟩).Timestamp ≠ 0 ∧
      (stamp 7 ⟨"b", "a", "hi", false, 0⟩).Sender = "b" ∧
      (stamp 7 ⟨"b", "a", "hi", false, 0⟩).Recipient = "a" ∧
      (stamp 7 ⟨"b", "a", "hi", false, 0⟩).Content = "hi" ∧
      (stamp 7 ⟨"b", "a", "hi", false, 0⟩).Broadcast = false :=
  unicast_delivered 7 Pick.ctx
    { ctxDone := false, input := [⟨"b", "a", "hi", false, 0⟩], users := [("a", 0)],
      done := false } (emptyHeap 1) ⟨"b", "a", "hi", false, 0⟩ [] 0 rfl (Or.inl rfl) rfl
    (by decide) (by decide) (by decide)

/-- C5.  For a unicast message whose recipient is not registered: `SendMessage`
on a broker whose context is not cancelled and whose input queue has room
returns `nil` and enqueues the message; and the iteration of `Run` that takes the
message off the input queue makes no delivery attempt, leaves every queue as it
was and goes on with the loop (the broker is not stopped and nothing is
reported). -/
theorem unknown_recipient_dropped (now : Int) (pick : Pick) (b : Broker) (h : Heap)
    (msg : Message) (hb : msg.Broadcast = false)
    (hreg : GoMap.get b.users msg.Recipient = none) :
    (b.ctxDone = false → b.input.length < inputCap →
      SendMessage pick b msg = ({ b with input := b.input ++ [msg] }, SendResult.ok)) ∧
    (∀ rest, b.input = msg :: rest → (b.ctxDone = false ∨ pick = Pick.chan) →
      Run.iter now pick b h = Iter.dispatched { b with input := rest } h []) := by
  refine ⟨fun hctx hroom => SendMessage_of_room pick b msg hctx hroom, ?_⟩
  intro rest hin hgo
  obtain ⟨_, h2, _, h4⟩ := stamp_fields now msg
  have hget : GoMap.get b.users (stamp now msg).Recipient = none := by rw [h2, hreg]
  have hfan := fanOut_unknown b.users h (stamp now msg) (h4.trans hb) hget
  rw [Run_iter_of_input now pick b h msg rest hin hgo]
  unfold dispatch
  rw [hfan]

/-- C5 at a concrete input: only "a" is registered and the message is for "c". -/
theorem unknown_recipient_dropped_witness :
    Run.iter 7 Pick.ctx
        { ctxDone := false, input := [⟨"a", "c", "hi", false, 0⟩], users := [("a", 0)],
          done := false } (emptyHeap 1)
      = Iter.dispatched
          { ctxDone := false, input := [], users := [("a", 0)], done := false }
          (emptyHeap 1) [] :=
  (unknown_recipient_dropped 7 Pick.ctx
    { ctxDone := false, input := [⟨"a", "c", "hi", false, 0⟩], users := [("a", 0)],
      done := false } (emptyHeap 1) ⟨"a", "c", "hi", false, 0⟩ rfl (by decide)).2 [] rfl
    (Or.inl rfl)

/-- C6.  The message is stamped once, when it is taken off the input queue:
every queue gains copies of the one message `stamp now msg`.  That message is
`msg` itself when the submitted `Timestamp` is not zero, so every delivered copy
has exactly the submitted `Timestamp`; and it is `msg` with `Timestamp` set to
the current time when the submitted `Timestamp` is zero. -/
theorem timestamp_kept (now : Int) (pick : Pick) (b : Broker) (h : Heap) (msg : Message)
    (rest : List Message) (hin : b.input = msg :: rest)
    (hgo : b.ctxDone = false ∨ pick = Pick.chan) :
    ∃ b' h' log, Run.iter now pick b h = Iter.dispatched b' h' log ∧
      (∀ c : ChanId, (h' c).buf = (h c).buf ++ List.replicate (copies log c) (stamp now msg)) ∧
      (msg.Timestamp ≠ 0 → stamp now msg = msg ∧
        ∀ (c : ChanId) (m' : Message), m' ∈ (h' c).buf.drop (h c).buf.length →
          m'.Timestamp = msg.Timestamp) ∧
      (msg.Timestamp = 0 → stamp now msg = { msg with Timestamp := now }) := by
  refine ⟨_, _, _, Run_iter_of_input now pick b h msg rest hin hgo,
    fun c => fanOut_buf _ _ _ _, ?_, ?_⟩
  · intro ht
    refine ⟨stamp_of_ne_zero now msg ht, ?_⟩
    intro c m' hm'
    have hbuf := fanOut_buf b.users h (stamp now msg) c
    unfold dispatch at hm'
    rw [hbuf, List.drop_left] at hm'
    rw [List.eq_of_mem_replicate hm', stamp_of_ne_zero now msg ht]
  · intro ht
    simp [stamp, ht]

/-- C6 at a concrete input: a broadcast with timestamp 42 reaches the queues of
"a" and "b" with that timestamp. -/
theorem timestamp_kept_witness :
    ∃ b' h' log,
      Run.iter 7 Pick.ctx
          { ctxDone := false, input := [⟨"a", "", "hi", true, 42⟩],
            users := [("a", 0), ("b", 1)], done := false } (emptyHeap 1)
        = Iter.dispatched b' h' log ∧
      (∀ c : ChanId, (h' c).buf
        = ((emptyHeap 1) c).buf ++ List.replicate (copies log c) (stamp 7 ⟨"a", "", "hi", true, 42⟩)) ∧
      ((42 : Int) ≠ 0 → stamp 7 ⟨"a", "", "hi", true, 42⟩ = ⟨"a", "", "hi", true, 42⟩ ∧
        ∀ (c : ChanId) (m' : Message), m' ∈ (h' c).buf.drop ((emptyHeap 1) c).buf.length →
          m'.Timestamp = 42) ∧
      ((42 : Int) = 0 →
        stamp 7 ⟨"a", "", "hi", true, 42⟩ = { (⟨"a", "", "hi", true, 42⟩ : Message) with Timestamp := 7 }) :=
  timestamp_kept 7 Pick.ctx
    { ctxDone := false, input := [⟨"a", "", "hi", true, 42⟩],
      users := [("a", 0), ("b", 1)], done := false } (emptyHeap 1)
    ⟨"a", "", "hi", true, 42⟩ [] rfl (Or.inl rfl)

end chatcore

/-! ## Broadcast, full queues and the order of dispatch -/

namespace chatcore

theorem trySend_other (h : Heap) (ch : ChanId) (msg : Message) (c : ChanId) (hne : c ≠ ch) :
    (trySend h ch msg).1 c = h c := by
  unfold trySend
  split
  · simp [Function.update, hne]
  · rfl

theorem trySend_self_of_room (h : Heap) (ch : ChanId) (msg : Message)
    (hroom : (h ch).hasRoom = true) :
    (trySend h ch msg).2 = true ∧ ((trySend h ch msg).1 ch).buf = (h ch).buf ++ [msg] ∧
      ((trySend h ch msg).1 ch).cap = (h ch).cap := by
  simp [trySend, hroom]

theorem copies_single_self (u : String) (c : ChanId) : copies [⟨u, c, true⟩] c = 1 := by
  simp [copies]

theorem copies_single_false (u : String) (ch c : ChanId) : copies [⟨u, ch, false⟩] c = 0 := by
  simp [copies]

theorem idsOf_cons_self (u : String) (c : ChanId) (rest : List (String × ChanId)) :
    idsOf ((u, c) :: rest) c = u :: idsOf rest c := by
  simp [idsOf]

theorem idsOf_cons_of_ne (u : String) (ch c : ChanId) (rest : List (String × ChanId))
    (hne : ch ≠ c) : idsOf ((u, ch) :: rest) c = idsOf rest c := by
  simp [idsOf, hne]

theorem sendAll_copies_of_room (msg : Message) (users : List (String × ChanId)) (h : Heap)
    (c : ChanId) (hroom : (h c).buf.length + (idsOf users c).length ≤ (h c).cap) :
    copies (sendAll msg users h).2 c = (idsOf users c).length := by
  induction users generalizing h with
  | nil => simp [sendAll, copies, idsOf]
  | cons e rest ih =>
    obtain ⟨u, ch⟩ := e
    simp only [sendAll]
    rw [copies_cons]
    by_cases hc : ch = c
    · subst hc
      rw [idsOf_cons_self] at hroom ⊢
      simp only [List.length_cons] at hroom ⊢
      have hr : (h ch).hasRoom = true := by
        simp only [Chan.hasRoom, decide_eq_true_eq]
        omega
      obtain ⟨h1, h2, h3⟩ := trySend_self_of_room h ch msg hr
      rw [h1, copies_single_self, ih (trySend h ch msg).1 (by
        rw [h2, h3]
        simp only [List.length_append, List.length_cons, List.length_nil]
        omega)]
      omega
    · rw [idsOf_cons_of_ne _ _ _ _ hc] at hroom ⊢
      have hc' : c ≠ ch := fun e => hc e.symm
      rw [copies_single_of_ne _ _ hc, ih (trySend h ch msg).1 (by
        rw [trySend_other h ch msg c hc']
        exact hroom)]
      omega

theorem sendAll_copies_pos (msg : Message) (users : List (String × ChanId)) (h : Heap)
    (u : String) (c : ChanId) (hmem : (u, c) ∈ users) (hroom : (h c).hasRoom = true) :
    1 ≤ copies (sendAll msg users h).2 c := by
  induction users generalizing h with
  | nil => cases hmem
  | cons e rest ih =>
    obtain ⟨u', ch⟩ := e
    simp only [sendAll]
    rw [copies_cons]
    by_cases hc : ch = c
    · subst hc
      rw [(trySend_self_of_room h ch msg hroom).1, copies_single_self]
      omega
    · have hc' : c ≠ ch := fun e => hc e.symm
      have hmem' : (u, c) ∈ rest := by
        rcases List.mem_cons.1 hmem with heq | hin
        · exact absurd (congrArg Prod.snd heq).symm hc
        · exact hin
      have := ih (trySend h ch msg).1 hmem' (by rw [trySend_other h ch msg c hc']; exact hroom)
      omega

theorem sendAll_copies_of_full (msg : Message) (users : List (String × ChanId)) (h : Heap)
    (c : ChanId) (hfull : (h c).hasRoom = false) :
    copies (sendAll msg users h).2 c = 0 := by
  induction users generalizing h with
  | nil => simp [sendAll, copies]
  | cons e rest ih =>
    obtain ⟨u, ch⟩ := e
    simp only [sendAll]
    rw [copies_cons]
    by_cases hc : ch = c
    · subst hc
      rw [trySend_of_full h ch msg hfull, copies_single_false, ih h hfull]
    · have hc' : c ≠ ch := fun e => hc e.symm
      rw [copies_single_of_ne _ _ hc, ih (trySend h ch msg).1 (by
        rw [trySend_other h ch msg c hc']
        exact hfull)]

theorem sendAll_skips_full (msg : Message) (users : List (String × ChanId)) (h : Heap)
    (c : ChanId) (hfull : (h c).hasRoom = false) :
    ∀ a ∈ (sendAll msg users h).2, a.chan = c → a.delivered = false := by
  induction users generalizing h with
  | nil => simp [sendAll]
  | cons e rest ih =>
    obtain ⟨u, ch⟩ := e
    simp only [sendAll]
    intro a ha hac
    rcases List.mem_cons.1 ha with rfl | ha'
    · simp only at hac
      subst hac
      simp [trySend_of_full h _ msg hfull]
    · by_cases hc : ch = c
      · subst hc
        rw [trySend_of_full h ch msg hfull] at ha'
        exact ih h hfull a ha' hac
      · have hc' : c ≠ ch := fun e => hc e.symm
        exact ih (trySend h ch msg).1 (by rw [trySend_other h ch msg c hc']; exact hfull)
          a ha' hac

theorem chan_eq_of_copies_zero (users : List (String × ChanId)) (h : Heap) (msg : Message)
    (c : ChanId) (hzero : copies (fanOut users h msg).2 c = 0) :
    (fanOut users h msg).1 c = h c := by
  have hbuf := fanOut_buf users h msg c
  have hcap := fanOut_cap users h msg c
  rw [hzero] at hbuf
  simp only [List.replicate_zero, List.append_nil] at hbuf
  cases hx : (fanOut users h msg).1 c with
  | mk buf cap =>
    rw [hx] at hbuf hcap
    simp only at hbuf hcap
    rw [hbuf, hcap]

theorem SendMessage_changes_only_on_ok (pick : Pick) (b : Broker) (msg : Message)
    (hne : (SendMessage pick b msg).2 ≠ SendResult.ok) : (SendMessage pick b msg).1 = b := by
  unfold SendMessage at *
  split <;> simp_all

theorem idsOf_del (users : List (String × ChanId)) (id : String) (q : ChanId)
    (honly : ∀ e ∈ users, e.2 = q → e.1 = id) : idsOf (GoMap.del users id) q = [] := by
  simp only [idsOf, GoMap.del, List.map_eq_nil_iff, List.filter_eq_nil_iff, List.mem_filter,
    decide_eq_true_eq]
  intro e he heq
  exact he.2 (honly e he.1 heq)

end chatcore

namespace chatcore

/-- C3, as stated, fails when a registered queue is full.  "a" has the queue 0
with room and "b" the queue 1 of capacity 0; the broadcast of "a" is delivered
to queue 0 and not to queue 1, whose attempt is given up. -/
theorem broadcast_skips_full_queue :
    ∃ b' h' log,
      Run.iter 7 Pick.chan
          { ctxDone := false, input := [⟨"a", "", "hi", true, 0⟩],
            users := [("a", 0), ("b", 1)], done := false }
          (fun c => if c = 1 then { buf := [], cap := 0 } else { buf := [], cap := 1 })
        = Iter.dispatched b' h' log ∧
      (h' 0).buf = [⟨"a", "", "hi", true, 7⟩] ∧ (h' 1).buf = [] ∧
      log = [⟨"a", 0, true⟩, ⟨"b", 1, false⟩] := by
  refine ⟨_, _, _, rfl, ?_, ?_, ?_⟩ <;> decide

/-- C3, amended.  The iteration that takes a broadcast off the input queue makes
one attempt per entry of the registry, the entry of the sender included.  Every
queue gains copies of the one stamped message, so all delivered copies carry the
same `Timestamp`.  The queue of every registered recipient that has room gets
the message, the queue of the sender among them, and a queue with room for one
copy per identifier registered with it gets exactly that many copies; a queue
that is full gets none. -/
theorem broadcast_delivered (now : Int) (pick : Pick) (b : Broker) (h : Heap) (msg : Message)
    (rest : List Message) (hin : b.input = msg :: rest)
    (hgo : b.ctxDone = false ∨ pick = Pick.chan) (hb : msg.Broadcast = true) :
    ∃ b' h' log, Run.iter now pick b h = Iter.dispatched b' h' log ∧
      log.map (fun a => (a.user, a.chan)) = b.users ∧
      (∀ c : ChanId, (h' c).buf = (h c).buf ++ List.replicate (copies log c) (stamp now msg)) ∧
      (∀ (u : String) (c : ChanId), (u, c) ∈ b.users → (h c).hasRoom = true →
        1 ≤ copies log c) ∧
      (∀ c : ChanId, GoMap.get b.users msg.Sender = some c → (h c).hasRoom = true →
        1 ≤ copies log c) ∧
      (∀ c : ChanId, (h c).buf.length + (idsOf b.users c).length ≤ (h c).cap →
        copies log c = (idsOf b.users c).length) ∧
      (∀ c : ChanId, (h c).hasRoom = false → copies log c = 0) := by
  have hb' : (stamp now msg).Broadcast = true := (stamp_fields now msg).2.2.2.trans hb
  have hfan := fanOut_broadcast b.users h (stamp now msg) hb'
  refine ⟨_, _, _, Run_iter_of_input now pick b h msg rest hin hgo, ?_,
    fun c => fanOut_buf _ _ _ _, ?_, ?_, ?_, ?_⟩
  · unfold dispatch
    rw [hfan]
    exact sendAll_log _ _ _
  · intro u c hmem hroom
    unfold dispatch
    rw [hfan]
    exact sendAll_copies_pos _ _ _ u c hmem hroom
  · intro c hget hroom
    unfold dispatch
    rw [hfan]
    exact sendAll_copies_pos _ _ _ msg.Sender c (GoMap.mem_of_get _ _ _ hget) hroom
  · intro c hroom
    unfold dispatch
    rw [hfan]
    exact sendAll_copies_of_room _ _ _ _ hroom
  · intro c hfull
    unfold dispatch
    rw [hfan]
    exact sendAll_copies_of_full _ _ _ _ hfull

/-- C3, amended, at the scenario of the claim: "a" and "b" are registered with
the empty queues 0 and 1, "a" broadcasts "hi" with timestamp 0 at time 7, and
each of the two queues then holds exactly one message, with content "hi" and
the same timestamp 7. -/
theorem broadcast_delivered_witness :
    ∃ b' h' log,
      Run.iter 7 Pick.ctx
          { ctxDone := false, input := [⟨"a", "", "hi", true, 0⟩],
            users := [("a", 0), ("b", 1)], done := false } (emptyHeap 1)
        = Iter.dispatched b' h' log ∧
      (h' 0).buf = [⟨"a", "", "hi", true, 7⟩] ∧ (h' 1).buf = [⟨"a", "", "hi", true, 7⟩] := by
  obtain ⟨b', h', log, hit, _, hbuf, _, _, hall, _⟩ :=
    broadcast_delivered 7 Pick.ctx
      { ctxDone := false, input := [⟨"a", "", "hi", true, 0⟩],
        users := [("a", 0), ("b", 1)], done := false } (emptyHeap 1)
      ⟨"a", "", "hi", true, 0⟩ [] rfl (Or.inl rfl) rfl
  refine ⟨b', h', log, hit, ?_, ?_⟩
  · rw [hbuf 0, hall 0 (by decide)]
    decide
  · rw [hbuf 1, hall 1 (by decide)]
    decide

/-- C4.  A broadcast is taken off the input queue while "a" is registered with a
queue `ca` that has room and "b" with a queue `cb` that is full.  The iteration
appends the message to `ca`, leaves `cb` exactly as it was, makes one attempt per
entry of the registry and none again (every attempt on `cb` is given up), and
goes on with the loop: the broker is not stopped and nothing is reported.  A
message is in the input queue only if its `SendMessage` returned `nil`. -/
theorem broadcast_full_recipient_skipped (now : Int) (pick : Pick) (b : Broker) (h : Heap)
    (msg : Message) (rest : List Message) (a b_id : String) (ca cb : ChanId)
    (hin : b.input = msg :: rest) (hgo : b.ctxDone = false ∨ pick = Pick.chan)
    (hb : msg.Broadcast = true) (hrega : GoMap.get b.users a = some ca)
    (_hregb : GoMap.get b.users b_id = some cb) (hroom : (h ca).hasRoom = true)
    (hfull : (h cb).hasRoom = false) :
    (∃ b' h' log, Run.iter now pick b h = Iter.dispatched b' h' log ∧
      1 ≤ copies log ca ∧
      (h' ca).buf = (h ca).buf ++ List.replicate (copies log ca) (stamp now msg) ∧
      h' cb = h cb ∧
      log.map (fun a => (a.user, a.chan)) = b.users ∧
      (∀ x ∈ log, x.chan = cb → x.delivered = false) ∧
      b'.ctxDone = b.ctxDone ∧ b'.done = b.done ∧ b'.users = b.users ∧ b'.input = rest) ∧
    (∀ (p : Pick) (b₀ : Broker), (SendMessage p b₀ msg).2 ≠ SendResult.ok →
      (SendMessage p b₀ msg).1 = b₀) := by
  have hb' : (stamp now msg).Broadcast = true := (stamp_fields now msg).2.2.2.trans hb
  have hfan := fanOut_broadcast b.users h (stamp now msg) hb'
  refine ⟨⟨_, _, _, Run_iter_of_input now pick b h msg rest hin hgo, ?_, fanOut_buf _ _ _ _, ?_,
    ?_, ?_, rfl, rfl, rfl, rfl⟩, fun p b₀ hne => SendMessage_changes_only_on_ok p b₀ msg hne⟩
  · unfold dispatch
    rw [hfan]
    exact sendAll_copies_pos _ _ _ a ca (GoMap.mem_of_get _ _ _ hrega) hroom
  · unfold dispatch
    apply chan_eq_of_copies_zero
    rw [hfan]
    exact sendAll_copies_of_full _ _ _ _ hfull
  · unfold dispatch
    rw [hfan]
    exact sendAll_log _ _ _
  · unfold dispatch
    rw [hfan]
    exact sendAll_skips_full _ _ _ _ hfull

/-- C4 at the scenario of the claim: the queue 1 of "b" has capacity 1 and holds
one message, the queue 0 of "a" is empty with capacity 1. -/
theorem broadcast_full_recipient_skipped_witness :
    ∃ b' h' log,
      Run.iter 7 Pick.ctx
          { ctxDone := false, input := [⟨"a", "", "hi", true, 0⟩],
            users := [("a", 0), ("b", 1)], done := false }
          (fun c => if c = 1 then { buf := [⟨"x", "b", "old", false, 1⟩], cap := 1 }
            else { buf := [], cap := 1 })
        = Iter.dispatched b' h' log ∧
      1 ≤ copies log 0 ∧
      (h' 0).buf = [] ++ List.replicate (copies log 0) (stamp 7 ⟨"a", "", "hi", true, 0⟩) ∧
      h' 1 = { buf := [⟨"x", "b", "old", false, 1⟩], cap := 1 } ∧
      log.map (fun a => (a.user, a.chan)) = [("a", 0), ("b", 1)] ∧
      (∀ x ∈ log, x.chan = 1 → x.delivered = false) ∧
      b'.ctxDone = false ∧ b'.done = false ∧ b'.users = [("a", 0), ("b", 1)] ∧ b'.input = [] :=
  (broadcast_full_recipient_skipped 7 Pick.ctx
    { ctxDone := false, input := [⟨"a", "", "hi", true, 0⟩],
      users := [("a", 0), ("b", 1)], done := false }
    (fun c => if c = 1 then { buf := [⟨"x", "b", "old", false, 1⟩], cap := 1 }
      else { buf := [], cap := 1 })
    ⟨"a", "", "hi", true, 0⟩ [] "a" "b" 0 1 rfl (Or.inl rfl) rfl (by decide) (by decide)
    (by decide) (by decide)).1

/-- C7, as stated, fails when the queue handle is registered under a second
identifier.  The queue 0 is registered under "a" and under "b"; after
`UnregisterUser "a"` a broadcast is still delivered to the queue 0, through "b". -/
theorem unregistered_shared_handle_still_served :
    GoMap.get (RegisterUser (RegisterUser (NewBroker false) "a" 0) "b" 0).users "a" = some 0 ∧
      ((dispatch 7
          (UnregisterUser (RegisterUser (RegisterUser (NewBroker false) "a" 0) "b" 0) "a")
          (emptyHeap 1) ⟨"c", "", "hi", true, 0⟩).1 0).buf
        = [⟨"c", "", "hi", true, 7⟩] := by
  decide

/-- C7, amended.  A message dispatched on a broker in which the queue `q` is
registered under no identifier makes no attempt on `q` and leaves `q` as it was;
and `UnregisterUser b id` gives such a broker whenever `q` was registered under
`id` only, so that every message dispatched after it, unicast or broadcast,
leaves `q` as it was. -/
theorem unregistered_queue_untouched (b : Broker) (id : String) (q : ChanId)
    (honly : ∀ e ∈ b.users, e.2 = q → e.1 = id) :
    idsOf (UnregisterUser b id).users q = [] ∧
    (∀ (b' : Broker) (h : Heap) (msg : Message) (now : Int), idsOf b'.users q = [] →
      (dispatch now b' h msg).1 q = h q ∧ copies (dispatch now b' h msg).2 q = 0) ∧
    (∀ (h : Heap) (msg : Message) (now : Int),
      (dispatch now (UnregisterUser b id) h msg).1 q = h q ∧
      copies (dispatch now (UnregisterUser b id) h msg).2 q = 0) := by
  have hids : idsOf (UnregisterUser b id).users q = [] := idsOf_del b.users id q honly
  have hgen : ∀ (b' : Broker) (h : Heap) (msg : Message) (now : Int), idsOf b'.users q = [] →
      (dispatch now b' h msg).1 q = h q ∧ copies (dispatch now b' h msg).2 q = 0 := by
    intro b' h msg now hnil
    have hle := fanOut_copies_le b'.users h (stamp now msg) q
    rw [hnil] at hle
    have hzero : copies (fanOut b'.users h (stamp now msg)).2 q = 0 := Nat.le_zero.1 hle
    exact ⟨chan_eq_of_copies_zero _ _ _ _ hzero, hzero⟩
  exact ⟨hids, hgen, fun h msg now => hgen _ h msg now hids⟩

/-- C7, amended, at a concrete input: "a" has the queue 0 and "b" the queue 1;
after `UnregisterUser "a"` a broadcast leaves the queue 0 empty. -/
theorem unregistered_queue_untouched_witness :
    (dispatch 7 (UnregisterUser (RegisterUser (RegisterUser (NewBroker false) "a" 0) "b" 1) "a")
        (emptyHeap 1) ⟨"c", "", "hi", true, 0⟩).1 0 = (emptyHeap 1) 0 :=
  ((unregistered_queue_untouched (RegisterUser (RegisterUser (NewBroker false) "a" 0) "b" 1)
    "a" 0 (by decide)).2.2 (emptyHeap 1) ⟨"c", "", "hi", true, 0⟩ 7).1

end chatcore

namespace chatcore

theorem Run_iters_eq (pick : Pick) (msgs : List Message) (nows : List Int) (b : Broker)
    (h : Heap) (hgo : b.ctxDone = false ∨ pick = Pick.chan) (hin : b.input = msgs)
    (hlen : nows.length = msgs.length) :
    Run.iters pick nows b h
      = ({ b with input := [] }, (dispatchSeq b.users (msgs.zip nows) h).1,
          (dispatchSeq b.users (msgs.zip nows) h).2) := by
  induction msgs generalizing nows b h with
  | nil =>
    have hn : nows = [] := List.length_eq_zero.1 (by simpa using hlen)
    subst hn
    cases b
    simp only at hin
    subst hin
    simp [Run.iters, dispatchSeq]
  | cons m rest ih =>
    cases nows with
    | nil => simp at hlen
    | cons now nows' =>
      have hlen' : nows'.length = rest.length := by simpa using hlen
      simp only [Run.iters, Run_iter_of_input now pick b h m rest hin hgo]
      rw [ih nows' { b with input := rest } (dispatch now b h m).1 hgo rfl hlen']
      rfl

theorem dispatchSeq_length (users : List (String × ChanId)) (pairs : List (Message × Int))
    (h : Heap) : (dispatchSeq users pairs h).2.length = pairs.length := by
  induction pairs generalizing h with
  | nil => rfl
  | cons p rest ih =>
    obtain ⟨m, now⟩ := p
    simp [dispatchSeq, ih]

theorem dispatchSeq_buf (users : List (String × ChanId)) (pairs : List (Message × Int))
    (h : Heap) (c : ChanId) :
    ((dispatchSeq users pairs h).1 c).buf
      = (h c).buf ++ gained c pairs (dispatchSeq users pairs h).2 := by
  induction pairs generalizing h with
  | nil => simp [dispatchSeq, gained]
  | cons p rest ih =>
    obtain ⟨m, now⟩ := p
    simp only [dispatchSeq, gained]
    rw [ih, fanOut_buf, List.append_assoc]

/-- C10.  Messages `msgs` (at most 100) sent one after the other to a broker
with an empty input queue are all accepted and stand in the input queue in that
order.  The loop of `Run` then takes them off in the same order, one per turn:
its turns are the fan-outs of the messages one after the other, each starting
from the queues as the whole fan-out of the previous message left them.  Every
queue ends with its old content followed by the copies of the first message
delivered to it, then those of the second, and so on. -/
theorem dispatch_in_acceptance_order (pick₁ pick₂ : Pick) (b : Broker) (h : Heap)
    (msgs : List Message) (nows : List Int) (hctx : b.ctxDone = false)
    (hempty : b.input = []) (hlen : msgs.length ≤ 100) (hnows : nows.length = msgs.length) :
    sendMany pick₁ msgs b
      = ({ b with input := msgs }, List.replicate msgs.length SendResult.ok) ∧
    Run.iters pick₂ nows { b with input := msgs } h
      = (b, (dispatchSeq b.users (msgs.zip nows) h).1,
          (dispatchSeq b.users (msgs.zip nows) h).2) ∧
    (dispatchSeq b.users (msgs.zip nows) h).2.length = msgs.length ∧
    ∀ c : ChanId, ((dispatchSeq b.users (msgs.zip nows) h).1 c).buf
      = (h c).buf ++ gained c (msgs.zip nows) (dispatchSeq b.users (msgs.zip nows) h).2 := by
  refine ⟨?_, ?_, ?_, fun c => dispatchSeq_buf _ _ _ _⟩
  · have := sendMany_of_room pick₁ msgs b hctx (by simpa [hempty, inputCap] using hlen)
    simpa [hempty] using this
  · rw [Run_iters_eq pick₂ msgs nows { b with input := msgs } h (Or.inl hctx) rfl hnows]
    cases b
    simp only at hempty
    subst hempty
    rfl
  · rw [dispatchSeq_length]
    simp [hnows]

/-- C10 at a concrete input: two messages for "a" are sent and then dispatched;
they stand in the queue of "a" in the order in which they were sent. -/
theorem dispatch_in_acceptance_order_witness :
    (Run.iters Pick.ctx [7, 8]
        { RegisterUser (NewBroker false) "a" 0 with
          input := [⟨"b", "a", "one", false, 0⟩, ⟨"c", "a", "two", false, 0⟩] }
        (emptyHeap 2)).2.1 0
      = { buf := [⟨"b", "a", "one", false, 7⟩, ⟨"c", "a", "two", false, 8⟩], cap := 2 } := by
  rw [(dispatch_in_acceptance_order Pick.ctx Pick.ctx (RegisterUser (NewBroker false) "a" 0)
    (emptyHeap 2) [⟨"b", "a", "one", false, 0⟩, ⟨"c", "a", "two", false, 0⟩] [7, 8] rfl rfl
    (by decide) rfl).2.1]
  decide

end chatcore

/-! ## lab01 `taskmanager`: `UpdateTask` and `ListTasks` -/

namespace GoMap

variable {κ α : Type} [DecidableEq κ]

theorem get_of_mem_wf (m : List (κ × α)) (hwf : Wf m) (e : κ × α) (he : e ∈ m) :
    get m e.1 = some e.2 := by
  induction m with
  | nil => cases he
  | cons e' rest ih =>
    obtain ⟨k', v'⟩ := e'
    have hnd : k' ∉ keys rest ∧ Wf rest := by
      unfold Wf keys at hwf
      simpa [Wf, keys] using hwf
    rcases List.mem_cons.1 he with rfl | hin
    · simp [get]
    · have hne : k' ≠ e.1 := by
        intro heq
        exact hnd.1 (heq ▸ List.mem_map_of_mem Prod.fst hin)
      simp only [get, hne, if_false]
      exact ih hnd.2 hin

theorem filterMap_get_of_agree (m l : List (κ × α))
    (hag : ∀ e ∈ l, get m e.1 = some e.2) :
    (l.map Prod.fst).filterMap (get m) = l.map Prod.snd := by
  induction l with
  | nil => rfl
  | cons e rest ih =>
    have h1 := hag e (List.mem_cons_self _ _)
    have h2 := ih (fun e' he' => hag e' (List.mem_cons_of_mem _ he'))
    simp [List.filterMap_cons, h1, h2]

theorem foldl_append_if {β γ : Type} (p : β → Bool) (g : β → γ) (l : List β) (init : List γ) :
    l.foldl (fun result e => if p e then result ++ [g e] else result) init
      = init ++ (l.filter p).map g := by
  induction l generalizing init with
  | nil => simp
  | cons e rest ih =>
    simp only [List.foldl_cons]
    rw [ih]
    by_cases hp : p e = true
    · simp [hp, List.filter_cons]
    · simp [hp, List.filter_cons]

end GoMap

namespace lab01.taskmanager

/-- C21.  `UpdateTask` returns `ErrEmptyTitle` exactly when the title is empty,
`ErrTaskNotFound` exactly when the title is not empty and no task is stored
under the id, and `nil` otherwise; so it returns an error exactly when the title
is empty or no task with the id exists, and the manager is then unchanged.  On
success the task stored under the id has the new `Title`, `Description` and
`Done` and the `ID` and `CreatedAt` it had, every other id is mapped as before
and `nextID` is unchanged. -/
theorem UpdateTask_spec (tm : TaskManager) (id : Int) (title description : String)
    (done : Bool) :
    ((tm.UpdateTask id title description done).2 = some Error.ErrEmptyTitle ↔ title = "") ∧
    ((tm.UpdateTask id title description done).2 = some Error.ErrTaskNotFound ↔
      title ≠ "" ∧ GoMap.get tm.tasks id = none) ∧
    ((tm.UpdateTask id title description done).2 ≠ none ↔
      title = "" ∨ GoMap.get tm.tasks id = none) ∧
    ((tm.UpdateTask id title description done).2 ≠ none →
      (tm.UpdateTask id title description done).1 = tm) ∧
    (∀ task, title ≠ "" → GoMap.get tm.tasks id = some task →
      (tm.UpdateTask id title description done).2 = none ∧
      GoMap.get (tm.UpdateTask id title description done).1.tasks id
        = some { ID := task.ID, Title := title, Description := description, Done := done,
                 CreatedAt := task.CreatedAt } ∧
      (∀ id', id' ≠ id →
        GoMap.get (tm.UpdateTask id title description done).1.tasks id'
          = GoMap.get tm.tasks id') ∧
      (tm.UpdateTask id title description done).1.nextID = tm.nextID ∧
      (GoMap.Wf tm.tasks → GoMap.Wf (tm.UpdateTask id title description done).1.tasks)) := by
  by_cases ht : title = ""
  · simp [TaskManager.UpdateTask, ht]
  · cases hget : GoMap.get tm.tasks id with
    | none => simp [TaskManager.UpdateTask, ht, hget]
    | some task =>
      have hupd : tm.UpdateTask id title description done
          = ({ tasks := GoMap.set tm.tasks id
                  (Task.mk task.ID title description done task.CreatedAt),
               nextID := tm.nextID }, none) := by
        simp [TaskManager.UpdateTask, ht, hget]
      rw [hupd]
      refine ⟨by simp [ht], by simp, by simp [ht], by simp, ?_⟩
      intro task' _ htask
      have hEq : task' = task := (Option.some.inj htask).symm
      subst hEq
      exact ⟨rfl, GoMap.get_set_self _ _ _, fun id' hne => GoMap.get_set_of_ne _ _ hne, rfl,
        fun hwf => GoMap.wf_set _ _ _ hwf⟩

/-- C21 at a concrete input: the task added first is updated under its id 1. -/
theorem UpdateTask_spec_witness :
    GoMap.get ((NewTaskManager.AddTask "write" "the report" 99).1.UpdateTask 1 "send" "it"
        true).1.tasks 1
      = some { ID := 1, Title := "send", Description := "it", Done := true, CreatedAt := 99 } :=
  ((UpdateTask_spec (NewTaskManager.AddTask "write" "the report" 99).1 1 "send" "it"
    true).2.2.2.2
    { ID := 1, Title := "write", Description := "the report", Done := false, CreatedAt := 99 }
    (by decide) (by decide)).2.1

/-- C22.  `ListTasks` leaves the manager as it is.  For a manager whose map has
distinct keys there is a list of ids without repetition, holding exactly the ids
whose stored task passes the filter (every stored id for `nil`, the ids whose
task has `Done` equal to `d` for `&d`), such that the result is the list of the
tasks stored under these ids: every matching stored task appears once per id it
is stored under, and nothing else appears.  When no stored task matches, the
result is empty. -/
theorem ListTasks_spec (tm : TaskManager) (filterDone : Option Bool)
    (hwf : GoMap.Wf tm.tasks) :
    (tm.ListTasks filterDone).1 = tm ∧
    (∃ ids : List Int, ids.Nodup ∧
      (∀ id, id ∈ ids ↔ ∃ t, GoMap.get tm.tasks id = some t ∧ keeps filterDone t = true) ∧
      (tm.ListTasks filterDone).2 = ids.filterMap (GoMap.get tm.tasks)) ∧
    (∀ t, t ∈ (tm.ListTasks filterDone).2 ↔
      ∃ id, GoMap.get tm.tasks id = some t ∧ keeps filterDone t = true) ∧
    (filterDone = none → (tm.ListTasks filterDone).2.length = tm.tasks.length) ∧
    (∀ d, filterDone = some d → ∀ t ∈ (tm.ListTasks filterDone).2, t.Done = d) ∧
    ((∀ id t, GoMap.get tm.tasks id = some t → keeps filterDone t = false) →
      (tm.ListTasks filterDone).2 = []) := by
  have hres : (tm.ListTasks filterDone).2
      = (tm.tasks.filter (fun e => keeps filterDone e.2)).map Prod.snd := by
    simp only [TaskManager.ListTasks]
    rw [GoMap.foldl_append_if (fun e : Int × Task => keeps filterDone e.2) Prod.snd]
    simp
  have hag : ∀ e ∈ tm.tasks.filter (fun e => keeps filterDone e.2),
      GoMap.get tm.tasks e.1 = some e.2 :=
    fun e he => GoMap.get_of_mem_wf tm.tasks hwf e (List.mem_of_mem_filter he)
  have hmem : ∀ t, t ∈ (tm.ListTasks filterDone).2 ↔
      ∃ id, GoMap.get tm.tasks id = some t ∧ keeps filterDone t = true := by
    intro t
    rw [hres]
    constructor
    · intro ht
      obtain ⟨e, he, rfl⟩ := List.mem_map.1 ht
      exact ⟨e.1, hag e he, (List.mem_filter.1 he).2⟩
    · rintro ⟨id, hget, hk⟩
      exact List.mem_map.2 ⟨(id, t), List.mem_filter.2 ⟨GoMap.mem_of_get _ _ _ hget, hk⟩, rfl⟩
  refine ⟨rfl, ⟨(tm.tasks.filter (fun e => keeps filterDone e.2)).map Prod.fst, ?_, ?_, ?_⟩,
    hmem, ?_, ?_, ?_⟩
  · exact List.Nodup.sublist ((List.filter_sublist tm.tasks).map Prod.fst) hwf
  · intro id
    constructor
    · intro hid
      obtain ⟨e, he, rfl⟩ := List.mem_map.1 hid
      exact ⟨e.2, hag e he, (List.mem_filter.1 he).2⟩
    · rintro ⟨t, hget, hk⟩
      exact List.mem_map.2 ⟨(id, t), List.mem_filter.2 ⟨GoMap.mem_of_get _ _ _ hget, hk⟩, rfl⟩
  · rw [hres, GoMap.filterMap_get_of_agree tm.tasks _ hag]
  · intro hnone
    rw [hres, hnone]
    simp [keeps]
  · intro d hd t ht
    obtain ⟨_, _, hk⟩ := (hmem t).1 ht
    rw [hd] at hk
    simpa [keeps] using hk
  · intro hno
    rw [hres]
    have : tm.tasks.filter (fun e => keeps filterDone e.2) = [] := by
      rw [List.filter_eq_nil_iff]
      intro e he
      have := hno e.1 e.2 (GoMap.get_of_mem_wf tm.tasks hwf e he)
      simp [this]
    rw [this]
    rfl

/-- C22 at a concrete input: two tasks are added, the first is marked done, and
the tasks that are done are listed. -/
theorem ListTasks_spec_witness :
    ∃ ids : List Int, ids.Nodup ∧
      (∀ id, id ∈ ids ↔
        ∃ t, GoMap.get (((NewTaskManager.AddTask "one" "" 5).1.AddTask "two" "" 6).1.UpdateTask 1
          "one" "" true).1.tasks id = some t ∧ keeps (some true) t = true) ∧
      ((((NewTaskManager.AddTask "one" "" 5).1.AddTask "two" "" 6).1.UpdateTask 1 "one"
          "" true).1.ListTasks (some true)).2
        = ids.filterMap (GoMap.get (((NewTaskManager.AddTask "one" "" 5).1.AddTask "two" ""
            6).1.UpdateTask 1 "one" "" true).1.tasks) :=
  (ListTasks_spec (((NewTaskManager.AddTask "one" "" 5).1.AddTask "two" "" 6).1.UpdateTask 1
    "one" "" true).1 (some true) (by decide)).2.1

end lab01.taskmanager

/-! ## lab02 `message`: the message store -/

namespace message

theorem addMany_spec (msgs : List Message) (s : MessageStore) :
    addMany msgs s
      = ({ messages := s.messages ++ msgs }, List.replicate msgs.length none) := by
  induction msgs generalizing s with
  | nil => simp [addMany]
  | cons m rest ih =>
    simp only [addMany, MessageStore.AddMessage]
    rw [ih]
    simp [List.replicate_succ]

/-- C23.  `AddMessage` always returns `nil` and appends the message, so after
the calls for `msgs`, in that order, the store holds its earlier messages
followed by `msgs`; from a new store it holds exactly `msgs`.  On every store
`GetMessages` returns `nil` as its error and leaves the store as it is; for the
empty user it returns all stored messages in the order they were added, and for
another user exactly the stored messages whose `Sender` is that user, in the
order they were added. -/
theorem MessageStore_spec (s : MessageStore) (msgs : List Message) (user : String) :
    (∀ msg, (s.AddMessage msg).2 = none ∧ (s.AddMessage msg).1.messages = s.messages ++ [msg]) ∧
    ((addMany msgs s).1.messages = s.messages ++ msgs ∧
      ∀ e ∈ (addMany msgs s).2, e = none) ∧
    (addMany msgs NewMessageStore).1.messages = msgs ∧
    ((s.GetMessages user).1 = s ∧ (s.GetMessages user).2.2 = none) ∧
    (s.GetMessages "").2.1 = s.messages ∧
    (user ≠ "" →
      (s.GetMessages user).2.1 = s.messages.filter (fun msg => decide (msg.Sender = user))) ∧
    (user ≠ "" →
      ((addMany msgs NewMessageStore).1.GetMessages user).2.1
        = msgs.filter (fun msg => decide (msg.Sender = user))) := by
  have hfilter : user ≠ "" →
      ∀ t : MessageStore, (t.GetMessages user).2.1
        = t.messages.filter (fun msg => decide (msg.Sender = user)) := by
    intro hu t
    simp only [MessageStore.GetMessages, hu, if_false]
    have := GoMap.foldl_append_if (fun msg : Message => decide (msg.Sender = user)) id
      t.messages []
    simpa using this
  refine ⟨fun msg => ⟨rfl, rfl⟩, ?_, ?_, ?_, ?_, fun hu => hfilter hu s, ?_⟩
  · rw [addMany_spec]
    exact ⟨rfl, fun e he => List.eq_of_mem_replicate he⟩
  · rw [addMany_spec]
    simp [NewMessageStore]
  · by_cases hu : user = "" <;> simp [MessageStore.GetMessages, hu]
  · simp [MessageStore.GetMessages]
  · intro hu
    rw [hfilter hu, addMany_spec]
    simp [NewMessageStore]

/-- C23 at a concrete input: three messages are added to a new store and the
messages of "ann" are read back, in the order in which they were added. -/
theorem MessageStore_spec_witness :
    ((addMany [⟨"ann", "one", 1⟩, ⟨"bob", "two", 2⟩, ⟨"ann", "three", 3⟩]
        NewMessageStore).1.GetMessages "ann").2.1
      = [⟨"ann", "one", 1⟩, ⟨"bob", "two", 2⟩, ⟨"ann", "three", 3⟩].filter
          (fun msg => decide (msg.Sender = "ann")) :=
  (MessageStore_spec NewMessageStore
    [⟨"ann", "one", 1⟩, ⟨"bob", "two", 2⟩, ⟨"ann", "three", 3⟩] "ann").2.2.2.2.2.2 (by decide)

end message

/-! ## lab02 `chatcore`: the frame of a unicast dispatch -/

namespace chatcore

/-- C24.  The iteration that takes a unicast message off the input queue makes
no attempt on, and leaves exactly as it was, every queue other than the one the
registry maps the `Recipient` to; when the recipient is not registered no queue
changes.  In particular the queue of the sender is left as it was unless it is
the queue of the recipient. -/
theorem unicast_touches_only_recipient (now : Int) (pick : Pick) (b : Broker) (h : Heap)
    (msg : Message) (rest : List Message) (hin : b.input = msg :: rest)
    (hgo : b.ctxDone = false ∨ pick = Pick.chan) (hb : msg.Broadcast = false) :
    ∃ b' h' log, Run.iter now pick b h = Iter.dispatched b' h' log ∧
      (∀ c : ChanId, GoMap.get b.users msg.Recipient ≠ some c →
        h' c = h c ∧ ∀ a ∈ log, a.chan ≠ c) ∧
      (GoMap.get b.users msg.Recipient = none → h' = h ∧ log = []) ∧
      (∀ c : ChanId, GoMap.get b.users msg.Sender = some c →
        GoMap.get b.users msg.Recipient ≠ some c → h' c = h c) := by
  obtain ⟨_, h2, _, h4⟩ := stamp_fields now msg
  have hb' : (stamp now msg).Broadcast = false := h4.trans hb
  have hmain : ∀ c : ChanId, GoMap.get b.users msg.Recipient ≠ some c →
      (dispatch now b h msg).1 c = h c ∧ ∀ a ∈ (dispatch now b h msg).2, a.chan ≠ c := by
    intro c hne
    unfold dispatch
    cases hget : GoMap.get b.users (stamp now msg).Recipient with
    | none =>
      rw [fanOut_unknown _ _ _ hb' hget]
      simp
    | some ch =>
      have hc : c ≠ ch := by
        intro heq
        apply hne
        rw [← h2, hget, heq]
      rw [fanOut_unicast _ _ _ ch hb' hget]
      refine ⟨trySend_other h ch _ c hc, ?_⟩
      intro a ha
      simp only [List.mem_singleton] at ha
      rw [ha]
      exact fun e => hc e.symm
  refine ⟨_, _, _, Run_iter_of_input now pick b h msg rest hin hgo, hmain, ?_,
    fun c _ hne => (hmain c hne).1⟩
  intro hnone
  have hget : GoMap.get b.users (stamp now msg).Recipient = none := by rw [h2, hnone]
  unfold dispatch
  rw [fanOut_unknown _ _ _ hb' hget]
  exact ⟨rfl, rfl⟩

/-- C24 at a concrete input: "a" sends to "b"; the queue 0 of "a" and the queue
2 of "c" are left as they were. -/
theorem unicast_touches_only_recipient_witness :
    ∃ b' h' log,
      Run.iter 7 Pick.ctx
          { ctxDone := false, input := [⟨"a", "b", "hi", false, 0⟩],
            users := [("a", 0), ("b", 1), ("c", 2)], done := false } (emptyHeap 1)
        = Iter.dispatched b' h' log ∧
      (∀ c : ChanId, GoMap.get [("a", 0), ("b", 1), ("c", 2)] "b" ≠ some c →
        h' c = (emptyHeap 1) c ∧ ∀ a ∈ log, a.chan ≠ c) ∧
      (GoMap.get [("a", 0), ("b", 1), ("c", 2)] "b" = none → h' = emptyHeap 1 ∧ log = []) ∧
      (∀ c : ChanId, GoMap.get [("a", 0), ("b", 1), ("c", 2)] "a" = some c →
        GoMap.get [("a", 0), ("b", 1), ("c", 2)] "b" ≠ some c → h' c = (emptyHeap 1) c) :=
  unicast_touches_only_recipient 7 Pick.ctx
    { ctxDone := false, input := [⟨"a", "b", "hi", false, 0⟩],
      users := [("a", 0), ("b", 1), ("c", 2)], done := false } (emptyHeap 1)
    ⟨"a", "b", "hi", false, 0⟩ [] rfl (Or.inl rfl) rfl

end chatcore


/-! ## Facts about the regular expressions -/

namespace lab01.user

theorem Re.matchesAll_cons (r : Re) (c : Char) (s : List Char) :
    r.matchesAll (c :: s) = (r.deriv c).matchesAll s := rfl

theorem Re.Sim.nullable {f : Char → Char} {r r' : Re} (hsim : Re.Sim f r r')
    (hn : r.nullable = true) : r'.nullable = true := by
  induction hsim with
  | none r => simp [Re.nullable] at hn
  | eps => rfl
  | cls p p' h => simp [Re.nullable] at hn
  | seq _ _ iha ihb =>
    simp only [Re.nullable, Bool.and_eq_true] at hn ⊢
    exact ⟨iha hn.1, ihb hn.2⟩
  | alt _ _ iha ihb =>
    simp only [Re.nullable, Bool.or_eq_true] at hn ⊢
    exact hn.imp iha ihb
  | star _ _ => rfl
  | inl r₂ _ ih =>
    simp only [Re.nullable, Bool.or_eq_true]
    exact Or.inl (ih hn)

theorem Re.Sim.deriv {f : Char → Char} {r r' : Re} (hsim : Re.Sim f r r') (c : Char) :
    Re.Sim f (r.deriv c) (r'.deriv (f c)) := by
  induction hsim with
  | none r => exact Re.Sim.none _
  | eps => exact Re.Sim.none _
  | cls p p' h =>
    simp only [Re.deriv]
    by_cases hp : p c = true
    · simp only [hp, h c hp, if_true]
      exact Re.Sim.eps
    · simp only [hp]
      exact Re.Sim.none _
  | @seq a a' b b' ha hb iha ihb =>
    simp only [Re.deriv]
    by_cases hna : a.nullable = true
    · have hna' : a'.nullable = true := ha.nullable hna
      simp only [hna, hna', if_true]
      exact Re.Sim.alt (Re.Sim.seq iha hb) ihb
    · by_cases hna' : a'.nullable = true
      · simp only [hna, hna', if_true]
        exact Re.Sim.inl _ (Re.Sim.seq iha hb)
      · simp only [hna, hna']
        exact Re.Sim.seq iha hb
  | alt _ _ iha ihb =>
    simp only [Re.deriv]
    exact Re.Sim.alt iha ihb
  | star ha iha =>
    simp only [Re.deriv]
    exact Re.Sim.seq iha (Re.Sim.star ha)
  | inl r₂ _ ih =>
    simp only [Re.deriv]
    exact Re.Sim.inl _ ih

theorem Re.Sim.matchesAll {f : Char → Char} {r r' : Re} (hsim : Re.Sim f r r')
    (s : List Char) (hm : r.matchesAll s = true) : r'.matchesAll (s.map f) = true := by
  induction s generalizing r r' with
  | nil => exact hsim.nullable hm
  | cons c rest ih =>
    rw [List.map_cons, Re.matchesAll_cons]
    rw [Re.matchesAll_cons] at hm
    exact ih (hsim.deriv c) hm

theorem Re.void_not_nullable (r : Re) (hv : r.void = true) : r.nullable = false := by
  induction r with
  | none => rfl
  | eps => simp [Re.void] at hv
  | cls p => rfl
  | seq a b iha ihb =>
    simp only [Re.void, Bool.or_eq_true] at hv
    simp only [Re.nullable, Bool.and_eq_false_iff]
    exact hv.imp iha ihb
  | alt a b iha ihb =>
    simp only [Re.void, Bool.and_eq_true] at hv
    simp only [Re.nullable, Bool.or_eq_false_iff]
    exact ⟨iha hv.1, ihb hv.2⟩
  | star a _ => simp [Re.void] at hv

theorem Re.void_deriv (r : Re) (c : Char) (hv : r.void = true) : (r.deriv c).void = true := by
  induction r with
  | none => rfl
  | eps => simp [Re.void] at hv
  | cls p => simp [Re.void] at hv
  | seq a b iha ihb =>
    simp only [Re.void, Bool.or_eq_true] at hv
    simp only [Re.deriv]
    rcases hv with ha | hb
    · have hna : a.nullable = false := Re.void_not_nullable a ha
      simp [hna, Re.void, iha ha]
    · by_cases hna : a.nullable = true
      · simp [hna, Re.void, hb, ihb hb]
      · simp [hna, Re.void, hb]
  | alt a b iha ihb =>
    simp only [Re.void, Bool.and_eq_true] at hv
    simp [Re.deriv, Re.void, iha hv.1, ihb hv.2]
  | star a _ => simp [Re.void] at hv

theorem Re.void_matchesAll (r : Re) (s : List Char) (hv : r.void = true) :
    r.matchesAll s = false := by
  induction s generalizing r with
  | nil => exact Re.void_not_nullable r hv
  | cons c rest ih =>
    rw [Re.matchesAll_cons]
    exact ih _ (Re.void_deriv r c hv)

theorem Re.deriv_void_of_not_accepts (r : Re) (c : Char) (hc : r.accepts c = false) :
    (r.deriv c).void = true := by
  induction r with
  | none => rfl
  | eps => rfl
  | cls p =>
    simp only [Re.accepts] at hc
    simp [Re.deriv, hc, Re.void]
  | seq a b iha ihb =>
    simp only [Re.accepts, Bool.or_eq_false_iff] at hc
    simp only [Re.deriv]
    by_cases hna : a.nullable = true
    · simp [hna, Re.void, iha hc.1, ihb hc.2]
    · simp [hna, Re.void, iha hc.1]
  | alt a b iha ihb =>
    simp only [Re.accepts, Bool.or_eq_false_iff] at hc
    simp [Re.deriv, Re.void, iha hc.1, ihb hc.2]
  | star a iha =>
    simp only [Re.accepts] at hc
    simp [Re.deriv, Re.void, iha hc]

theorem Re.accepts_of_deriv (r : Re) (c c' : Char) (hc : (r.deriv c').accepts c = true) :
    r.accepts c = true := by
  induction r with
  | none => simp [Re.deriv, Re.accepts] at hc
  | eps => simp [Re.deriv, Re.accepts] at hc
  | cls p =>
    simp only [Re.deriv] at hc
    split at hc <;> simp [Re.accepts] at hc
  | seq a b iha ihb =>
    simp only [Re.deriv] at hc
    simp only [Re.accepts, Bool.or_eq_true]
    split at hc
    · simp only [Re.accepts, Bool.or_eq_true] at hc
      rcases hc with (h1 | h2) | h3
      · exact Or.inl (iha h1)
      · exact Or.inr h2
      · exact Or.inr (ihb h3)
    · simp only [Re.accepts, Bool.or_eq_true] at hc
      exact hc.imp iha id
  | alt a b iha ihb =>
    simp only [Re.deriv, Re.accepts, Bool.or_eq_true] at hc ⊢
    exact hc.imp iha ihb
  | star a iha =>
    simp only [Re.deriv, Re.accepts, Bool.or_eq_true] at hc ⊢
    exact hc.elim iha id

theorem Re.accepts_of_matchesAll (r : Re) (s : List Char) (hm : r.matchesAll s = true) :
    ∀ c ∈ s, r.accepts c = true := by
  induction s generalizing r with
  | nil => intro c hc; cases hc
  | cons c' rest ih =>
    rw [Re.matchesAll_cons] at hm
    intro c hc
    rcases List.mem_cons.1 hc with rfl | hin
    · by_contra hna
      have hv := Re.deriv_void_of_not_accepts r c (by simpa using hna)
      rw [Re.void_matchesAll _ rest hv] at hm
      cases hm
    · exact Re.accepts_of_deriv r c c' (ih _ hm c hin)

end lab01.user

/-! ## lab05 `userdomain`: `NewUser` -/

namespace lab05.userdomain

open lab01.user

theorem ascii_cases (P : Char → Prop) (hP : ∀ n : Fin 128, P (Char.ofNat n.1)) (c : Char)
    (hc : c.toNat < 128) : P c := by
  have := hP ⟨c.toNat, hc⟩
  simpa [Char.ofNat_toNat] using this

theorem alnum_ascii (c : Char) (h : c.isAlphanum = true) : c.toNat < 128 := by
  simp only [Char.isAlphanum, Char.isAlpha, Char.isUpper, Char.isLower, Char.isDigit,
    Bool.or_eq_true, Bool.and_eq_true, decide_eq_true_eq, ge_iff_le, UInt32.le_def,
    BitVec.le_def] at h
  simp only [Char.toNat]
  have e1 : (UInt32.toBitVec 90).toNat = 90 := rfl
  have e2 : (UInt32.toBitVec 122).toNat = 122 := rfl
  have e3 : (UInt32.toBitVec 57).toNat = 57 := rfl
  have e4 : c.val.toBitVec.toNat = c.val.toNat := rfl
  rw [e1, e2, e3, e4] at h
  omega

theorem alpha_ascii (c : Char) (h : c.isAlpha = true) : c.toNat < 128 :=
  alnum_ascii c (by simp [Char.isAlphanum, h])

theorem localChar_ascii (c : Char) (h : localChar c = true) : c.toNat < 128 := by
  simp only [localChar, Bool.or_eq_true, decide_eq_true_eq] at h
  rcases h with ((((h | h) | h) | h) | h) | h
  · exact alnum_ascii c h
  all_goals (subst h; decide)

theorem domainChar_ascii (c : Char) (h : domainChar c = true) : c.toNat < 128 := by
  simp only [domainChar, Bool.or_eq_true, decide_eq_true_eq] at h
  rcases h with (h | h) | h
  · exact alnum_ascii c h
  all_goals (subst h; decide)

theorem accepts_emailRegex (c : Char) (h : emailRegex.accepts c = true) :
    localChar c = true ∨ domainChar c = true ∨ c.isAlpha = true ∨ c = '@' ∨ c = '.' := by
  simp only [emailRegex, lab01.user.emailRegex, Re.plus, Re.accepts, Bool.or_eq_true,
    decide_eq_true_eq] at h
  tauto

theorem accepts_emailRegex_ascii (c : Char) (h : emailRegex.accepts c = true) :
    c.toNat < 128 := by
  rcases accepts_emailRegex c h with h | h | h | h | h
  · exact localChar_ascii c h
  · exact domainChar_ascii c h
  · exact alpha_ascii c h
  · subst h; decide
  · subst h; decide

theorem lower_table :
    ∀ n : Fin 128,
      (localChar (Char.ofNat n.1) = true → localChar (Char.ofNat n.1).toLower = true) ∧
      (domainChar (Char.ofNat n.1) = true → domainChar (Char.ofNat n.1).toLower = true) ∧
      ((Char.ofNat n.1).isAlpha = true → (Char.ofNat n.1).toLower.isAlpha = true) ∧
      (Char.ofNat n.1 = '@' → (Char.ofNat n.1).toLower = '@') ∧
      (Char.ofNat n.1 = '.' → (Char.ofNat n.1).toLower = '.') ∧
      (emailRegex.accepts (Char.ofNat n.1) = true →
        isSpace (Char.ofNat n.1) = false ∧ isSpace (Char.ofNat n.1).toLower = false) := by
  decide

theorem lower_not_upper (c : Char) (hc : c.toNat < 128) : c.toLower.isUpper = false :=
  ascii_cases (fun c => c.toLower.isUpper = false) (by decide) c hc

theorem trimList_head (l : List Char) (a : Char) (rest : List Char)
    (hr : trimList l = a :: rest) : isSpace a = false := by
  have hpre : trimList l <+: l.dropWhile isSpace := List.rdropWhile_prefix _ _
  rw [hr] at hpre
  obtain ⟨t, ht⟩ := hpre
  have hne : l.dropWhile isSpace ≠ [] := by
    rw [← ht]
    simp
  have hnot := List.head_dropWhile_not isSpace l hne
  have hhd : (l.dropWhile isSpace).head hne = a := by
    simp only [← ht]
    rfl
  rw [hhd] at hnot
  exact hnot

theorem trimList_spec (l : List Char) :
    ∃ pre post, l = pre ++ trimList l ++ post ∧
      (∀ c ∈ pre, isSpace c = true) ∧ (∀ c ∈ post, isSpace c = true) ∧
      (∀ a rest, trimList l = a :: rest → isSpace a = false) ∧
      (∀ h : trimList l ≠ [], isSpace ((trimList l).getLast h) = false) := by
  refine ⟨l.takeWhile isSpace, ((l.dropWhile isSpace).reverse.takeWhile isSpace).reverse,
    ?_, ?_, ?_, fun a rest h => trimList_head l a rest h, ?_⟩
  · have h1 := List.takeWhile_append_dropWhile isSpace l
    have h2 := List.takeWhile_append_dropWhile isSpace (l.dropWhile isSpace).reverse
    have h3 : trimList l ++ ((l.dropWhile isSpace).reverse.takeWhile isSpace).reverse
        = l.dropWhile isSpace := by
      unfold trimList
      rw [← List.reverse_append, h2, List.reverse_reverse]
    rw [List.append_assoc, h3, h1]
  · intro c hc
    exact List.mem_takeWhile_imp hc
  · intro c hc
    exact List.mem_takeWhile_imp (List.mem_reverse.1 hc)
  · intro h
    have := List.rdropWhile_last_not isSpace (l.dropWhile isSpace) h
    simpa using this

theorem lower_facts (c : Char) (hc : c.toNat < 128) :
    (localChar c = true → localChar c.toLower = true) ∧
    (domainChar c = true → domainChar c.toLower = true) ∧
    (c.isAlpha = true → c.toLower.isAlpha = true) ∧
    (c = '@' → c.toLower = '@') ∧ (c = '.' → c.toLower = '.') ∧
    (emailRegex.accepts c = true → isSpace c = false ∧ isSpace c.toLower = false) :=
  ascii_cases (fun c =>
    (localChar c = true → localChar c.toLower = true) ∧
    (domainChar c = true → domainChar c.toLower = true) ∧
    (c.isAlpha = true → c.toLower.isAlpha = true) ∧
    (c = '@' → c.toLower = '@') ∧ (c = '.' → c.toLower = '.') ∧
    (emailRegex.accepts c = true → isSpace c = false ∧ isSpace c.toLower = false))
    lower_table c hc

theorem emailRegex_sim (lower : Char → Char)
    (hlower : ∀ c : Char, c.toNat < 128 → lower c = c.toLower) :
    Re.Sim lower emailRegex emailRegex := by
  have hloc : ∀ c, localChar c = true → localChar (lower c) = true := by
    intro c h
    have ha := localChar_ascii c h
    rw [hlower c ha]
    exact (lower_facts c ha).1 h
  have hdom : ∀ c, domainChar c = true → domainChar (lower c) = true := by
    intro c h
    have ha := domainChar_ascii c h
    rw [hlower c ha]
    exact (lower_facts c ha).2.1 h
  have halpha : ∀ c : Char, c.isAlpha = true → (lower c).isAlpha = true := by
    intro c h
    have ha := alpha_ascii c h
    rw [hlower c ha]
    exact (lower_facts c ha).2.2.1 h
  have hat : ∀ c : Char, decide (c = '@') = true → decide (lower c = '@') = true := by
    intro c h
    have hc : c = '@' := of_decide_eq_true h
    have ha : c.toNat < 128 := by subst hc; decide
    rw [hlower c ha]
    exact decide_eq_true ((lower_facts c ha).2.2.2.1 hc)
  have hdot : ∀ c : Char, decide (c = '.') = true → decide (lower c = '.') = true := by
    intro c h
    have hc : c = '.' := of_decide_eq_true h
    have ha : c.toNat < 128 := by subst hc; decide
    rw [hlower c ha]
    exact decide_eq_true ((lower_facts c ha).2.2.2.2.1 hc)
  unfold emailRegex lab01.user.emailRegex Re.plus
  exact Re.Sim.seq (Re.Sim.seq (Re.Sim.cls _ _ hloc) (Re.Sim.star (Re.Sim.cls _ _ hloc)))
    (Re.Sim.seq (Re.Sim.cls _ _ hat)
      (Re.Sim.seq (Re.Sim.seq (Re.Sim.cls _ _ hdom) (Re.Sim.star (Re.Sim.cls _ _ hdom)))
        (Re.Sim.seq (Re.Sim.cls _ _ hdot)
          (Re.Sim.seq (Re.Sim.cls _ _ halpha)
            (Re.Sim.seq (Re.Sim.cls _ _ halpha) (Re.Sim.star (Re.Sim.cls _ _ halpha)))))))

theorem dropWhile_of_no_space (l : List Char) (h : ∀ c ∈ l, isSpace c = false) :
    l.dropWhile isSpace = l := by
  cases l with
  | nil => rfl
  | cons a t => simp [List.dropWhile_cons, h a (List.mem_cons_self _ _)]

theorem trimList_of_no_space (l : List Char) (h : ∀ c ∈ l, isSpace c = false) :
    trimList l = l := by
  unfold trimList
  rw [dropWhile_of_no_space l h,
    dropWhile_of_no_space l.reverse (fun c hc => h c (List.mem_reverse.1 hc)),
    List.reverse_reverse]

theorem trimList_idem (l : List Char) : trimList (trimList l) = trimList l := by
  have hshape : ∀ m : List Char, trimList m = (m.dropWhile isSpace).rdropWhile isSpace :=
    fun m => rfl
  have hhead : (trimList l).dropWhile isSpace = trimList l := by
    cases hr : trimList l with
    | nil => rfl
    | cons a r' =>
      have hpre : trimList l <+: l.dropWhile isSpace := by
        rw [hshape]
        exact List.rdropWhile_prefix _ _
      rw [hr] at hpre
      obtain ⟨t, ht⟩ := hpre
      have hne : l.dropWhile isSpace ≠ [] := by
        rw [← ht]
        simp
      have hnot := List.head_dropWhile_not isSpace l hne
      have hhd : (l.dropWhile isSpace).head hne = a := by
        simp only [← ht]
        rfl
      rw [hhd] at hnot
      simp [List.dropWhile_cons, hnot]
  rw [hshape (trimList l), hhead, hshape l, List.rdropWhile_idempotent]

theorem TrimSpace_idem (s : String) : TrimSpace (TrimSpace s) = TrimSpace s := by
  simp only [TrimSpace, trimList_idem]

end lab05.userdomain

namespace lab05.userdomain

open lab01.user

theorem ValidateEmail_eq_none (email : String) :
    ValidateEmail email = none ↔
      TrimSpace email ≠ "" ∧ emailRegex.matchesAll (TrimSpace email).data = true := by
  unfold ValidateEmail
  by_cases h1 : TrimSpace email = ""
  · simp [h1]
  · by_cases h2 : emailRegex.matchesAll (TrimSpace email).data = true
    · simp [h1, h2]
    · simp [h1, h2]

theorem ValidateEmail_lowered (lower : Char → Char)
    (hlower : ∀ c : Char, c.toNat < 128 → lower c = c.toLower) (email : String)
    (hv : ValidateEmail email = none) :
    ValidateEmail (ToLower lower (TrimSpace email)) = none := by
  obtain ⟨hne, hm⟩ := (ValidateEmail_eq_none email).1 hv
  have hacc := Re.accepts_of_matchesAll emailRegex _ hm
  have hnospace : ∀ c ∈ (TrimSpace email).data.map lower, isSpace c = false := by
    intro c hc
    obtain ⟨c₀, hc₀, rfl⟩ := List.mem_map.1 hc
    have ha := accepts_emailRegex_ascii c₀ (hacc c₀ hc₀)
    rw [hlower c₀ ha]
    exact ((lower_facts c₀ ha).2.2.2.2.2 (hacc c₀ hc₀)).2
  have htrim : TrimSpace (ToLower lower (TrimSpace email)) = ToLower lower (TrimSpace email) := by
    have hdata : trimList ((TrimSpace email).data.map lower)
        = (TrimSpace email).data.map lower := trimList_of_no_space _ hnospace
    show (⟨trimList ((TrimSpace email).data.map lower)⟩ : String)
      = ⟨(TrimSpace email).data.map lower⟩
    rw [hdata]
  rw [ValidateEmail_eq_none, htrim]
  constructor
  · intro hempty
    apply hne
    have hd : (ToLower lower (TrimSpace email)).data = [] := by rw [hempty]
    simp only [ToLower, List.map_eq_nil_iff] at hd
    exact String.ext hd
  · exact (emailRegex_sim lower hlower).matchesAll _ hm

theorem ValidateName_trimmed (name : String) (hv : ValidateName name = none) :
    ValidateName (TrimSpace name) = none := by
  unfold ValidateName at *
  rw [TrimSpace_idem]
  exact hv

/-- C26.  `lower` stands for the Unicode lower-casing of `strings.ToLower`,
which on the ASCII characters is the ASCII lower-casing.  `NewUser` fails
exactly when `ValidateEmail`, `ValidateName` or `ValidatePassword` rejects its
input, with the error of the first of them that does, and succeeds otherwise.
The user it returns is accepted by `Validate`.  Its `Email` is the input
without its leading and trailing white space and with every capital letter
replaced by the small one, so it holds no capital letter and has as many
characters as the trimmed input; its `Name` is the input without its leading
and trailing white space: the input is white space, then the `Name`, then white
space, and the `Name` neither begins nor ends with white space; its `Password`
is the input. -/
theorem NewUser_spec (lower : Char → Char)
    (hlower : ∀ c : Char, c.toNat < 128 → lower c = c.toLower) (currentTime : Int)
    (email name password : String) :
    ((∃ err, NewUser lower currentTime email name password = Except.error err) ↔
      (ValidateEmail email ≠ none ∨ ValidateName name ≠ none ∨
        ValidatePassword password ≠ none)) ∧
    (∀ err, ValidateEmail email = some err →
      NewUser lower currentTime email name password = Except.error err) ∧
    (∀ err, ValidateEmail email = none → ValidateName name = some err →
      NewUser lower currentTime email name password = Except.error err) ∧
    (∀ err, ValidateEmail email = none → ValidateName name = none →
      ValidatePassword password = some err →
      NewUser lower currentTime email name password = Except.error err) ∧
    (ValidateEmail email = none → ValidateName name = none →
      ValidatePassword password = none →
      ∃ u, NewUser lower currentTime email name password = Except.ok u ∧
        u.Validate = none ∧
        u.Email.data = (trimList email.data).map Char.toLower ∧
        (∀ c ∈ u.Email.data, c.isUpper = false ∧ isSpace c = false) ∧
        (∃ pre post, email.data = pre ++ trimList email.data ++ post ∧
          (∀ c ∈ pre, isSpace c = true) ∧ (∀ c ∈ post, isSpace c = true)) ∧
        (∃ pre post, name.data = pre ++ u.Name.data ++ post ∧
          (∀ c ∈ pre, isSpace c = true) ∧ (∀ c ∈ post, isSpace c = true) ∧
          (∀ a rest, u.Name.data = a :: rest → isSpace a = false) ∧
          (∀ h : u.Name.data ≠ [], isSpace (u.Name.data.getLast h) = false)) ∧
        u.Password = password) ∧
    (∀ u, NewUser lower currentTime email name password = Except.ok u →
      u.Validate = none ∧ u.Email = ToLower lower (TrimSpace email) ∧
      u.Name = TrimSpace name ∧ u.Password = password) := by
  cases he : ValidateEmail email with
  | some e => simp [NewUser, he]
  | none =>
    cases hn : ValidateName name with
    | some e => simp [NewUser, he, hn]
    | none =>
      cases hp : ValidatePassword password with
      | some e => simp [NewUser, he, hn, hp]
      | none =>
        have hok : NewUser lower currentTime email name password
            = Except.ok { ID := 0, Email := ToLower lower (TrimSpace email),
                          Name := TrimSpace name, Password := password,
                          CreatedAt := currentTime, UpdatedAt := currentTime } := by
          simp [NewUser, he, hn, hp]
        have hvalid : User.Validate (User.mk 0 (ToLower lower (TrimSpace email))
            (TrimSpace name) password currentTime currentTime) = none := by
          simp [User.Validate, ValidateEmail_lowered lower hlower email he,
            ValidateName_trimmed name hn, hp]
        obtain ⟨_, hm⟩ := (ValidateEmail_eq_none email).1 he
        have hacc := Re.accepts_of_matchesAll emailRegex _ hm
        have hmap : (trimList email.data).map lower = (trimList email.data).map Char.toLower := by
          apply List.map_congr_left
          intro c hc
          exact hlower c (accepts_emailRegex_ascii c (hacc c hc))
        rw [hok]
        refine ⟨by simp, by simp, by simp, by simp, fun _ _ _ => ⟨_, rfl, hvalid, hmap, ?_, ?_, ?_,
          rfl⟩, ?_⟩
        · intro c hc
          have hc' : c ∈ (trimList email.data).map Char.toLower := by
            rw [← hmap]
            exact hc
          obtain ⟨c₀, hc₀, rfl⟩ := List.mem_map.1 hc'
          have ha := accepts_emailRegex_ascii c₀ (hacc c₀ hc₀)
          exact ⟨lower_not_upper c₀ ha, ((lower_facts c₀ ha).2.2.2.2.2 (hacc c₀ hc₀)).2⟩
        · obtain ⟨pre, post, h1, h2, h3, _, _⟩ := trimList_spec email.data
          exact ⟨pre, post, h1, h2, h3⟩
        · exact trimList_spec name.data
        · intro u hu
          have hu' := (Except.ok.inj hu).symm
          subst hu'
          exact ⟨hvalid, rfl, rfl, rfl⟩

/-- C26 at a concrete input, with the ASCII lower-casing for `lower`: the email
and the name are given with blanks around them and the email with capitals; the
user has the email "ann@example.com" and the name "Ann". -/
theorem NewUser_spec_witness :
    ∃ u, NewUser Char.toLower 5 "  Ann@Example.COM " " Ann " "Passw0rdX" = Except.ok u ∧
      u.Validate = none ∧ u.Email = "ann@example.com" ∧ u.Name = "Ann" ∧
      u.Password = "Passw0rdX" := by
  obtain ⟨u, hu, hv, _, _, _, _, _⟩ :=
    (NewUser_spec Char.toLower (fun _ _ => rfl) 5 "  Ann@Example.COM " " Ann "
      "Passw0rdX").2.2.2.2.1 (by decide) (by decide) (by decide)
  have hu' : u = User.mk 0 "ann@example.com" "Ann" "Passw0rdX" 5 5 := by
    have hok : NewUser Char.toLower 5 "  Ann@Example.COM " " Ann " "Passw0rdX"
        = Except.ok (User.mk 0 "ann@example.com" "Ann" "Passw0rdX" 5 5) := by
      rfl
    rw [hok] at hu
    exact (Except.ok.inj hu).symm
  subst hu'
  exact ⟨_, hu, hv, rfl, rfl, rfl⟩

end lab05.userdomain

/-! ## lab04: the statement of `Update` and the validation of posts -/

namespace lab04.repository

theorem Update_build_cases (id : Int) (req : UpdateUserRequest) (currentTime : Int) :
    (∀ name email, req = { Name := some name, Email := some email } →
      placeholders (Update.build id req currentTime).1.data = [1, 2, 3, 4] ∧
      (Update.build id req currentTime).2
        = [Param.str name, Param.str email, Param.time currentTime, Param.int id]) ∧
    (∀ name, req = { Name := some name, Email := none } →
      placeholders (Update.build id req currentTime).1.data = [1, 3, 4] ∧
      (Update.build id req currentTime).2
        = [Param.str name, Param.time currentTime, Param.int id]) ∧
    (∀ email, req = { Name := none, Email := some email } →
      placeholders (Update.build id req currentTime).1.data = [2, 3, 4] ∧
      (Update.build id req currentTime).2
        = [Param.str email, Param.time currentTime, Param.int id]) ∧
    (req = { Name := none, Email := none } →
      placeholders (Update.build id req currentTime).1.data = [3, 4] ∧
      (Update.build id req currentTime).2 = [Param.time currentTime, Param.int id]) := by
  refine ⟨?_, ?_, ?_, ?_⟩
  · intro name email h
    subst h
    refine ⟨?_, rfl⟩
    simp only [Update.build]
    decide
  · intro name h
    subst h
    refine ⟨?_, rfl⟩
    simp only [Update.build]
    decide
  · intro email h
    subst h
    refine ⟨?_, rfl⟩
    simp only [Update.build]
    decide
  · intro h
    subst h
    refine ⟨?_, rfl⟩
    simp only [Update.build]
    decide

/-- C25, as stated, fails when a field is absent.  With the `Email` alone the
query names `$2`, `$3` and `$4` and there are three arguments: there is no
fourth argument for `$4`, and the second argument is the update time, not the
email that `$2` stands for. -/
theorem Update_build_no_fourth_argument :
    (Update.build 7 { Name := none, Email := some "x@y.z" } 99).1
      = "UPDATE users SET email = $2, updated_at = $3 WHERE id = $4 RETURNING id, name, email, created_at, updated_at" ∧
    placeholders (Update.build 7 { Name := none, Email := some "x@y.z" } 99).1.data
      = [2, 3, 4] ∧
    (Update.build 7 { Name := none, Email := some "x@y.z" } 99).2
      = [Param.str "x@y.z", Param.time 99, Param.int 7] ∧
    kthArg (Update.build 7 { Name := none, Email := some "x@y.z" } 99).2 4 = none ∧
    kthArg (Update.build 7 { Name := none, Email := some "x@y.z" } 99).2 2
      = some (Param.time 99) ∧
    intended 7 { Name := none, Email := some "x@y.z" } 99 2 = some (Param.str "x@y.z") := by
  decide

/-- C25, amended.  The query that `Update` builds names each of its
placeholders once, and there are as many arguments as placeholders.  Under the
binding of SQLite, which numbers the placeholders in the order in which they
appear and binds the arguments in that order, every placeholder of the query is
bound to the value the query pairs it with: `$1` to the new name, `$2` to the
new email, `$3` to the update time and `$4` to the id.  The placeholder `$k` is
bound to the `k`-th argument exactly when both `Name` and `Email` are given. -/
theorem Update_build_binds_in_order (id : Int) (req : UpdateUserRequest)
    (currentTime : Int) :
    (placeholders (Update.build id req currentTime).1.data).Nodup ∧
    (Update.build id req currentTime).2.length
      = (placeholders (Update.build id req currentTime).1.data).length ∧
    (Update.build id req currentTime).2.map some
      = (placeholders (Update.build id req currentTime).1.data).map
          (intended id req currentTime) ∧
    (∀ k ∈ placeholders (Update.build id req currentTime).1.data,
      sqliteBound (Update.build id req currentTime).1.data (Update.build id req currentTime).2 k
        = intended id req currentTime k ∧
      (intended id req currentTime k).isSome = true) ∧
    (3 ∈ placeholders (Update.build id req currentTime).1.data ∧
      4 ∈ placeholders (Update.build id req currentTime).1.data ∧
      (1 ∈ placeholders (Update.build id req currentTime).1.data ↔ req.Name.isSome = true) ∧
      (2 ∈ placeholders (Update.build id req currentTime).1.data ↔ req.Email.isSome = true)) ∧
    ((∀ k ∈ placeholders (Update.build id req currentTime).1.data,
        kthArg (Update.build id req currentTime).2 k = intended id req currentTime k) ↔
      req.Name.isSome = true ∧ req.Email.isSome = true) := by
  obtain ⟨h11, h10, h01, h00⟩ := Update_build_cases id req currentTime
  obtain ⟨n, e⟩ := req
  cases n with
  | none =>
    cases e with
    | none =>
      obtain ⟨hq, hp⟩ := h00 rfl
      rw [hq, hp]
      simp [sqliteBound, firstSeen, intended, kthArg, List.indexOf_cons]
    | some email =>
      obtain ⟨hq, hp⟩ := h01 email rfl
      rw [hq, hp]
      simp [sqliteBound, firstSeen, intended, kthArg, List.indexOf_cons]
  | some name =>
    cases e with
    | none =>
      obtain ⟨hq, hp⟩ := h10 name rfl
      rw [hq, hp]
      simp [sqliteBound, firstSeen, intended, kthArg, List.indexOf_cons]
    | some email =>
      obtain ⟨hq, hp⟩ := h11 name email rfl
      rw [hq, hp]
      simp [sqliteBound, firstSeen, intended, kthArg, List.indexOf_cons]

/-- C25, amended, at a concrete input: with the `Email` alone, SQLite binds `$2`
to the email, the first of the three arguments. -/
theorem Update_build_binds_in_order_witness :
    sqliteBound (Update.build 7 { Name := none, Email := some "x@y.z" } 99).1.data
        (Update.build 7 { Name := none, Email := some "x@y.z" } 99).2 2
      = intended 7 { Name := none, Email := some "x@y.z" } 99 2 ∧
    (intended 7 { Name := none, Email := some "x@y.z" } 99 2).isSome = true :=
  (Update_build_binds_in_order 7 { Name := none, Email := some "x@y.z" } 99).2.2.2.1 2
    (by decide)

end lab04.repository

namespace lab04.models

/-- C27: what the code does.  `CreatePostRequest.Validate` returns `nil` exactly
when `Validate` of the post made by `ToPost` does, and `ToPost` copies `UserID`,
`Title`, `Content` and `Published`; both accept exactly the requests whose
`Title` has at least 5 bytes, whose `Content` is not empty when `Published` is
true and whose `UserID` is positive.  The title "日本" has 2 characters and 6
bytes, and the request with that title is accepted. -/
theorem CreatePostRequest_Validate_counts_bytes (r : CreatePostRequest) (currentTime : Int) :
    (r.Validate = none ↔ (r.ToPost currentTime).Validate = none) ∧
    (r.Validate = none ↔
      5 ≤ r.Title.utf8ByteSize ∧ (r.Published = true → r.Content ≠ "") ∧ 0 < r.UserID) ∧
    ((r.ToPost currentTime).UserID = r.UserID ∧ (r.ToPost currentTime).Title = r.Title ∧
      (r.ToPost currentTime).Content = r.Content ∧
      (r.ToPost currentTime).Published = r.Published) ∧
    (CreatePostRequest.Validate { UserID := 1, Title := "日本", Content := "", Published := false }
        = none ∧
      (CreatePostRequest.ToPost { UserID := 1, Title := "日本", Content := "", Published := false }
        0).Validate = none ∧
      "日本".length = 2 ∧ "日本".utf8ByteSize = 6) := by
  have hempty : r.Title = "" → r.Title.utf8ByteSize < 5 := by
    intro h
    rw [h]
    decide
  have hreq : r.Validate = none ↔
      5 ≤ r.Title.utf8ByteSize ∧ (r.Published = true → r.Content ≠ "") ∧ 0 < r.UserID := by
    unfold CreatePostRequest.Validate
    by_cases h1 : r.Title.utf8ByteSize < 5
    · simp [h1]
    · have h1' : ¬ r.Title = "" := fun h => h1 (hempty h)
      by_cases h2 : r.Published = true ∧ r.Content = ""
      · simp [h1, h1', h2]
      · by_cases h3 : r.UserID ≤ 0
        · simp only [h1, h1', h2, h3, or_self, if_false, if_true]
          simp
          intro _ _
          omega
        · simp only [h1, h1', h2, h3, or_self, if_false]
          simp only [true_iff]
          refine ⟨by omega, ?_, by omega⟩
          intro hp hc
          exact h2 ⟨hp, hc⟩
  have hpost : (r.ToPost currentTime).Validate = none ↔
      5 ≤ r.Title.utf8ByteSize ∧ (r.Published = true → r.Content ≠ "") ∧ 0 < r.UserID := by
    unfold Post.Validate CreatePostRequest.ToPost
    by_cases h1 : r.Title.utf8ByteSize < 5
    · simp [h1]
    · have h1' : ¬ r.Title = "" := fun h => h1 (hempty h)
      by_cases h2 : r.Published = true ∧ r.Content = ""
      · simp [h1, h1', h2]
      · by_cases h3 : r.UserID ≤ 0
        · simp only [h1, h1', h2, h3, or_self, if_false, if_true]
          simp
          intro _ _
          omega
        · simp only [h1, h1', h2, h3, or_self, if_false]
          simp only [true_iff]
          refine ⟨by omega, ?_, by omega⟩
          intro hp hc
          exact h2 ⟨hp, hc⟩
  exact ⟨hreq.trans hpost.symm, hreq, ⟨rfl, rfl, rfl, rfl⟩, by decide⟩

end lab04.models
